import Mathlib

/-!
# Verification of the openwebui-content-sync reconciliation engine

A shallow embedding of the sync manager (`internal/sync/manager.go`) and the
OpenWebUI client (`openwebui/client.go`), together with theorems settling the
frozen claims about the repository's specification.

Modelling conventions:
* The persistent file index (a Go `map[string]*FileMetadata`) is an
  association list with first-match lookup; Go's nondeterministic map
  iteration order is fixed to list order (one allowed schedule).
* Network calls are mediated by an environment of deterministic oracles
  (upload IDs, per-call success flags); each executed call is recorded in an
  operation trace.
* Local filesystem snapshot writes (`saveFileLocally`) are outside the
  embedding and modelled as succeeding; time stamps are naturals.
-/

/-- Metadata stored per index entry (`sync.FileMetadata` in manager.go). -/
structure FileMetadata where
  path : String
  hash : String
  fileID : String
  source : String
  knowledgeID : String
  syncedAt : Nat
  modified : Nat
deriving Repr, DecidableEq

/-- A logical file produced by an adapter (`adapter.File`). -/
structure AFile where
  path : String
  content : List Nat
  hash : String
  modified : Nat
  source : String
  knowledgeID : String
deriving Repr, DecidableEq

/-- Go `filepath.Base` on slash-separated paths: `""` gives `"."`, a path of
only slashes gives `"/"`, otherwise the last component after dropping
trailing slashes. -/
def baseName (s : String) : String :=
  if s = "" then "."
  else
    let r := s.toList.reverse.dropWhile (fun c => c = '/')
    if r = [] then "/"
    else String.mk (r.takeWhile (fun c => c ≠ '/')).reverse

/-- The file index: association list keyed by basename, first match wins. -/
abbrev SyncIndex : Type := List (String × FileMetadata)

/-- Map lookup (`m.fileIndex[filename]`). -/
def lookupIdx (idx : SyncIndex) (k : String) : Option FileMetadata :=
  match idx with
  | [] => none
  | (k', v) :: rest => if k' = k then some v else lookupIdx rest k

/-- Map insert/overwrite (`m.fileIndex[key] = metadata`). -/
def insertIdx (idx : SyncIndex) (k : String) (v : FileMetadata) : SyncIndex :=
  match idx with
  | [] => [(k, v)]
  | (k', v') :: rest =>
    if k' = k then (k, v) :: rest else (k', v') :: insertIdx rest k v

/-- Map key removal (`delete(m.fileIndex, key)`). -/
def eraseIdx (idx : SyncIndex) (k : String) : SyncIndex :=
  match idx with
  | [] => []
  | (k', v') :: rest =>
    if k' = k then eraseIdx rest k else (k', v') :: eraseIdx rest k

/-- The hash scan in `syncFile` (`for _, metadata := range m.fileIndex`,
first entry whose `Hash` equals the file's hash). -/
def findByHash (idx : SyncIndex) (h : String) : Option FileMetadata :=
  match idx with
  | [] => none
  | (_, v) :: rest => if v.hash = h then some v else findByHash rest h

/-- One downstream client call, as recorded in the operation trace. -/
inductive SyncOp where
  | upload (filename fileID : String)
  | attach (knowledgeID fileID : String)
  | detach (knowledgeID fileID : String)
  | saveIndex (ok : Bool)
deriving Repr, DecidableEq

def isUpload : SyncOp → Bool
  | .upload _ _ => true
  | _ => false

def isAttach : SyncOp → Bool
  | .attach _ _ => true
  | _ => false

def isDetach : SyncOp → Bool
  | .detach _ _ => true
  | _ => false

def countUploads (ops : List SyncOp) : Nat := (ops.filter isUpload).length

def countAttaches (ops : List SyncOp) : Nat := (ops.filter isAttach).length

def countDetaches (ops : List SyncOp) : Nat := (ops.filter isDetach).length

/-- Deterministic oracle for the downstream client: result of the n-th call
of each kind, the server-issued ID of the n-th upload, whether persisting
the index succeeds, and the cycle's wall clock (`time.Now`). -/
structure SyncEnv where
  uploadId : Nat → String
  uploadOk : Nat → Bool
  attachOk : Nat → Bool
  detachOk : Nat → Bool
  saveIndexOk : Bool
  now : Nat

/-- Mutable state threaded through a cycle: the in-memory index plus the
trace of executed client calls. -/
structure SyncState where
  fileIndex : SyncIndex
  ops : List SyncOp
deriving DecidableEq

/-- `RemoveFileFromKnowledge` as seen from the manager: record the call, the
oracle decides success.  The manager ignores the result everywhere it calls
this (detach is best-effort). -/
def doDetach (env : SyncEnv) (st : SyncState) (kb fid : String) : SyncState × Bool :=
  ({ st with ops := st.ops ++ [.detach kb fid] }, env.detachOk (countDetaches st.ops))

/-- `knowledgeID := file.KnowledgeID; if knowledgeID == "" { knowledgeID =
m.knowledgeID }` — the effective knowledge base with process-wide fallback. -/
def effKB (mkb x : String) : String := if x = "" then mkb else x

/-- The metadata written by `syncFile` on upload (manager.go lines 348-356). -/
def mkMeta (env : SyncEnv) (f : AFile) (source fid kID : String) : FileMetadata :=
  ⟨f.path, f.hash, fid, source, kID, env.now, f.modified⟩

/-- Index rewrite at the end of `syncFile` (manager.go lines 336-360): only
when no entry existed or the stored hash differs; when the match was by hash
under a different path, the old key is deleted first (rename detection). -/
def recordIndex (env : SyncEnv) (st : SyncState) (f : AFile)
    (source fid kID : String) (found : Option (FileMetadata × Bool)) : SyncState :=
  match found with
  | none =>
    { st with fileIndex := insertIdx st.fileIndex (baseName f.path) (mkMeta env f source fid kID) }
  | some (ex, byHash) =>
    if ex.hash ≠ f.hash then
      let st1 :=
        if byHash = true ∧ ex.path ≠ f.path then
          { st with fileIndex := eraseIdx st.fileIndex (baseName ex.path) }
        else st
      { st1 with fileIndex := insertIdx st1.fileIndex (baseName f.path) (mkMeta env f source fid kID) }
    else st

/-- The upload/attach/record tail of `syncFile` (manager.go lines 304-365):
save locally (modelled as succeeding), upload (failure aborts the file),
attach when an effective knowledge base is configured (failure aborts the
file), then rewrite the index entry.  Returns the new state and whether the
per-file sync succeeded (`error == nil`). -/
def uploadAttachRecord (env : SyncEnv) (mkb : String) (st : SyncState) (f : AFile)
    (source : String) (found : Option (FileMetadata × Bool)) : SyncState × Bool :=
  let n := countUploads st.ops
  let fid := env.uploadId n
  let stU : SyncState := { st with ops := st.ops ++ [.upload (baseName f.path) fid] }
  if env.uploadOk n = false then (stU, false)
  else
    let kID := effKB mkb f.knowledgeID
    if kID = "" then
      (recordIndex env stU f source fid kID found, true)
    else
      let nA := countAttaches stU.ops
      let stA : SyncState := { stU with ops := stU.ops ++ [.attach kID fid] }
      if env.attachOk nA = false then (stA, false)
      else (recordIndex env stA f source fid kID found, true)

/-- The update/migrate continuation of `syncFile` once an existing entry with
a different hash was found: in the same-knowledge-base case the old
downstream ID is detached first (best-effort, manager.go lines 288-297). -/
def syncUpdate (env : SyncEnv) (mkb : String) (st : SyncState) (f : AFile)
    (source : String) (ex : FileMetadata) (byHash : Bool) (fileKB : String) :
    SyncState × Bool :=
  let st1 :=
    if fileKB ≠ "" ∧ ex.fileID ≠ "" then (doDetach env st fileKB ex.fileID).1 else st
  uploadAttachRecord env mkb st1 f source (some (ex, byHash))

/-- The existing-entry search of `syncFile` (manager.go lines 228-246):
first by exact basename, else by hash scan.  The `Bool` is true when the
match was by hash (`matchReason == "hash"`). -/
def foundOf (idx : SyncIndex) (f : AFile) : Option (FileMetadata × Bool) :=
  match lookupIdx idx (baseName f.path) with
  | some e => some (e, false)
  | none =>
    match findByHash idx f.hash with
    | some e => some (e, true)
    | none => none

/-- `Manager.syncFile` (manager.go lines 225-366): look up by basename, then
by hash; skip when the stored hash equals the file's hash; otherwise detach /
upload / attach / rewrite according to the knowledge-base comparison. -/
def syncFile (env : SyncEnv) (mkb : String) (st : SyncState) (f : AFile)
    (source : String) : SyncState × Bool :=
  match foundOf st.fileIndex f with
  | none => uploadAttachRecord env mkb st f source none
  | some (ex, byHash) =>
    if ex.hash = f.hash then (st, true)
    else
      let fileKB := effKB mkb f.knowledgeID
      let exKB := effKB mkb ex.knowledgeID
      if exKB = fileKB then
        if ex.source = "openwebui" then
          syncUpdate env mkb st f source ex byHash fileKB
        else if ex.hash = f.hash then (st, true)
        else syncUpdate env mkb st f source ex byHash fileKB
      else uploadAttachRecord env mkb st f source (some (ex, byHash))

/-- One adapter run handed to a cycle: its name and the result of
`FetchFiles` (`none` models a fetch error). -/
structure AdapterRun where
  name : String
  fetch : Option (List AFile)
deriving Repr, DecidableEq

/-- The inner loop of `SyncFiles` over one adapter's files (manager.go lines
196-204): record each basename in the `currentFiles` set before syncing; a
per-file failure is logged and skipped.  The final `Bool` records whether
every per-file sync so far succeeded (ghost flag; the code only logs). -/
def syncAdapterFiles (env : SyncEnv) (mkb : String) :
    List AFile → String → SyncState → List String → Bool →
    SyncState × List String × Bool
  | [], _, st, present, ok => (st, present, ok)
  | f :: rest, src, st, present, ok =>
    let present1 := present ++ [baseName f.path]
    let r := syncFile env mkb st f src
    syncAdapterFiles env mkb rest src r.1 present1 (ok && r.2)

/-- The adapter loop of `SyncFiles` (manager.go lines 185-208): a fetch
failure is logged and the adapter skipped for this cycle. -/
def runAdapters (env : SyncEnv) (mkb : String) :
    List AdapterRun → SyncState → List String → Bool →
    SyncState × List String × Bool
  | [], st, present, ok => (st, present, ok)
  | a :: rest, st, present, ok =>
    match a.fetch with
    | none => runAdapters env mkb rest st present ok
    | some files =>
      let r := syncAdapterFiles env mkb files a.name st present ok
      runAdapters env mkb rest r.1 r.2.1 r.2.2

/-- Whether an index entry is an orphan (manager.go lines 380-384): not in
`currentFiles` by the basename of its recorded path, sourced from the
downstream re-import, and carrying a non-empty downstream ID.  The dead
`filename == ""` fallback of the source is included verbatim. -/
def orphanCond (present : List String) (kv : String × FileMetadata) : Prop :=
  let fn := baseName kv.2.path
  let fn1 := if fn = "" then baseName kv.1 else fn
  ¬ present.contains fn1 ∧ kv.2.source = "openwebui" ∧ kv.2.fileID ≠ ""

instance (present : List String) (kv : String × FileMetadata) :
    Decidable (orphanCond present kv) := by
  unfold orphanCond
  infer_instance

/-- The detach that `cleanupOrphanedFiles` performs for one orphan's
metadata: to the recorded knowledge base, falling back to the process-wide
one, and only when that effective knowledge base and the downstream ID are
non-empty (manager.go lines 402-418). -/
def orphanDetachOf (mkb : String) (md : FileMetadata) : Option SyncOp :=
  let kb := if md.knowledgeID = "" then mkb else md.knowledgeID
  if kb ≠ "" ∧ md.fileID ≠ "" then some (.detach kb md.fileID) else none

/-- The removal loop of `cleanupOrphanedFiles` (manager.go lines 399-423):
for each collected key, detach from the effective knowledge base when one is
set and a downstream ID exists — that is exactly `orphanDetachOf`, whose
result is ignored — then delete the key.  The `none` case guards the
(unreachable) lookup miss; Go reads `m.fileIndex[fileKey]` directly. -/
def removeOrphans (env : SyncEnv) (mkb : String) :
    SyncState → List String → SyncState
  | st, [] => st
  | st, k :: rest =>
    match lookupIdx st.fileIndex k with
    | none => removeOrphans env mkb { st with fileIndex := eraseIdx st.fileIndex k } rest
    | some md =>
      removeOrphans env mkb
        { st with
          fileIndex := eraseIdx st.fileIndex k,
          ops := st.ops ++ (orphanDetachOf mkb md).toList } rest

/-- `Manager.cleanupOrphanedFiles` (manager.go lines 369-426): collect the
orphaned keys, then remove each. -/
def cleanupOrphanedFiles (env : SyncEnv) (mkb : String) (st : SyncState)
    (present : List String) : SyncState :=
  let orphanKeys := (st.fileIndex.filter (fun kv => decide (orphanCond present kv))).map Prod.fst
  removeOrphans env mkb st orphanKeys

/-- Result of one reconciliation cycle. -/
structure CycleResult where
  state : SyncState
  present : List String
  allOk : Bool
  ret : Bool
deriving DecidableEq

/-- `Manager.SyncFiles` (manager.go lines 166-222): run every adapter, clean
up orphans, persist the index.  Cleanup and persistence failures are logged
only; the function returns `nil` unconditionally (`ret = true`). -/
def syncFiles (env : SyncEnv) (mkb : String) (idx : SyncIndex)
    (adapters : List AdapterRun) : CycleResult :=
  let r := runAdapters env mkb adapters ⟨idx, []⟩ [] true
  let st1 := cleanupOrphanedFiles env mkb r.1 r.2.1
  let st2 : SyncState := { st1 with ops := st1.ops ++ [.saveIndex env.saveIndexOk] }
  ⟨st2, r.2.1, r.2.2, true⟩

/-! ## The OpenWebUI client: detach and the ingestion wait (client.go) -/

/-- `Client.RemoveFileFromKnowledge` (client.go lines 390-430), abstracted
over the HTTP status code the downstream returns for the remove request:
404 is success (file already absent), 200/201 are success, everything else
is an error carrying the status. -/
def removeFileFromKnowledge (knowledgeID fileID : String) (status : Nat) :
    Except (String × Nat) Unit :=
  if status = 404 then .ok ()
  else if status ≠ 200 ∧ status ≠ 201 then .error (knowledgeID ++ "/" ++ fileID, status)
  else .ok ()

/-- Result of one `GetFile` probe during the ingestion wait: a transport
error, or the reported `data.status` string. -/
inductive ProbeOutcome where
  | err
  | status (s : String)
deriving Repr, DecidableEq

/-- Environment of the ingestion wait: the outcome of the k-th probe
(0-based) and the time at which the cancellation token trips, if ever.
Probes are instantaneous; time advances only through sleeps. -/
structure WaitEnv where
  probe : Nat → ProbeOutcome
  trip : Option Nat

/-- Observable events of the ingestion wait: a probe at a time, a sleep that
ran to completion (`aware` marks the context-aware `select` sleep as opposed
to the plain `time.Sleep` on the probe-error path), and a context-aware
sleep aborted by cancellation. -/
inductive WaitEv where
  | probe (time : Nat)
  | sleepFull (start dur : Nat) (aware : Bool)
  | sleepAborted (start : Nat)
deriving Repr, DecidableEq

inductive WaitResult where
  | success
  | failed
  | timeout
  | cancelled
deriving Repr, DecidableEq

/-- State of the ingestion wait: elapsed time, the `attempt` counter (equal
to the number of `GetFile` probes made), and the event trace. -/
structure WaitSt where
  time : Nat
  attempt : Nat
  trace : List WaitEv
deriving Repr, DecidableEq

/-- Has the cancellation token tripped by time `t`? -/
def tripped (trip : Option Nat) (t : Nat) : Bool :=
  match trip with
  | none => false
  | some T => T ≤ t

/-- The `select { case <-ctx.Done(): ...; case <-time.After(delay): }` sleep:
aborts at the trip time when the token trips during (or before) the sleep,
otherwise completes. -/
def awareSleep (trip : Option Nat) (t d : Nat) : Nat × Bool :=
  match trip with
  | some T => if T ≤ t + d then (max t T, true) else (t + d, false)
  | none => (t + d, false)

/-- The polling schedule of `waitForFileProcessing` (client.go lines
279-288): (attempts, delay seconds) buckets. -/
def pollIntervals : List (Nat × Nat) := [(5, 2), (5, 5), (10, 10), (15, 15), (16, 20)]

/-- `totalAttempts` as computed in client.go lines 292-295. -/
def totalAttempts : Nat := (pollIntervals.map Prod.fst).sum

/-- One iteration of the polling loop body (client.go lines 298-343): head
cancellation check, probe, classify the status, then sleep.  On a probe
transport error the sleep is a plain `time.Sleep` (not cancellation-aware);
on a pending status the sleep is the context-aware `select`, skipped after
the final attempt.  Returns `some r` when the wait returns. -/
def waitStep (env : WaitEnv) (d : Nat) (st : WaitSt) : WaitSt × Option WaitResult :=
  let att := st.attempt + 1
  if tripped env.trip st.time then (st, some .cancelled)
  else
    let st1 : WaitSt := { st with attempt := att, trace := st.trace ++ [.probe st.time] }
    match env.probe st.attempt with
    | .err =>
      ({ st1 with time := st1.time + d, trace := st1.trace ++ [.sleepFull st1.time d false] },
        none)
    | .status s =>
      if s = "processed" ∨ s = "completed" ∨ s = "" then (st1, some .success)
      else if s = "error" ∨ s = "failed" then (st1, some .failed)
      else if att < totalAttempts then
        let sl := awareSleep env.trip st1.time d
        if sl.2 then
          ({ st1 with time := sl.1, trace := st1.trace ++ [.sleepAborted st1.time] },
            some .cancelled)
        else
          ({ st1 with time := sl.1, trace := st1.trace ++ [.sleepFull st1.time d true] },
            none)
      else (st1, none)

/-- The inner `for i := 0; i < interval.attempts; i++` loop. -/
def waitCount (env : WaitEnv) (d : Nat) : Nat → WaitSt → WaitSt × Option WaitResult
  | 0, st => (st, none)
  | n + 1, st =>
    match waitStep env d st with
    | (st', some r) => (st', some r)
    | (st', none) => waitCount env d n st'

/-- The outer loop over the schedule buckets. -/
def waitBuckets (env : WaitEnv) : List (Nat × Nat) → WaitSt → WaitSt × Option WaitResult
  | [], st => (st, none)
  | (n, d) :: rest, st =>
    match waitCount env d n st with
    | (st', some r) => (st', some r)
    | (st', none) => waitBuckets env rest st'

/-- `Client.waitForFileProcessing` (client.go lines 268-348): run the
schedule; falling off the end is the timeout error. -/
def waitForFileProcessing (env : WaitEnv) : WaitSt × WaitResult :=
  match waitBuckets env pollIntervals ⟨0, 0, []⟩ with
  | (st, some r) => (st, r)
  | (st, none) => (st, .timeout)

/-- The probe events of a trace, as their times in order. -/
def probeTimes (tr : List WaitEv) : List Nat :=
  tr.filterMap (fun ev => match ev with | .probe t => some t | _ => none)

/-- The flattened delay schedule of a bucket list: each bucket `(n, d)`
contributes `n` delays of `d` seconds. -/
def flatDelays : List (Nat × Nat) → List Nat
  | [] => []
  | (n, d) :: rest => List.replicate n d ++ flatDelays rest

/-- Total attempt count of a bucket list. -/
def bucketsCount (bkts : List (Nat × Nat)) : Nat := (bkts.map Prod.fst).sum

/-- Cancellation discipline of one wait event relative to a trip time `T`:
probes only happen strictly before the trip, and a context-aware sleep runs
to completion only when it ends strictly before the trip.  Plain sleeps and
aborted sleeps are unconstrained. -/
def awareOk (T : Nat) : WaitEv → Prop
  | .probe t => t < T
  | .sleepFull s d aware => aware = true → s + d < T
  | .sleepAborted _ => True

/-- Modelled from the spec: the polling schedule of §4.1 stated as the flat
list of the 51 intervals — "five 2-second intervals, five 5-second
intervals, ten 10-second intervals, fifteen 15-second intervals, sixteen
20-second intervals". -/
def specIntervals : List Nat :=
  List.replicate 5 2 ++ List.replicate 5 5 ++ List.replicate 10 10 ++
    List.replicate 15 15 ++ List.replicate 16 20

/-- Modelled from the spec: the ingestion wait of §4.1 — one status probe
per scheduled interval, success on `processed`/`completed`/empty, failure on
`error`/`failed`, timeout once the schedule is exhausted.  A probe transport
error is non-terminal (the schedule keeps going).  Returns the result, the
number of probes made, and the times of the probes. -/
def specWait (probe : Nat → ProbeOutcome) : Nat → Nat → List Nat →
    WaitResult × Nat × List Nat
  | k, _, [] => (.timeout, k, [])
  | k, t, d :: rest =>
    match probe k with
    | .err =>
      let r := specWait probe (k + 1) (t + d) rest
      (r.1, r.2.1, t :: r.2.2)
    | .status s =>
      if s = "processed" ∨ s = "completed" ∨ s = "" then (.success, k + 1, [t])
      else if s = "error" ∨ s = "failed" then (.failed, k + 1, [t])
      else
        let r := specWait probe (k + 1) (t + d) rest
        (r.1, r.2.1, t :: r.2.2)

/-- The collapsed best-effort detach decision of `syncFile`'s update path: a
detach of the old downstream ID happens exactly when the effective knowledge
bases agree, the target is non-empty and the old entry has a downstream ID. -/
def detachStep (env : SyncEnv) (mkb : String) (st : SyncState) (f : AFile)
    (ex : FileMetadata) : SyncState :=
  if effKB mkb ex.knowledgeID = effKB mkb f.knowledgeID ∧
      effKB mkb f.knowledgeID ≠ "" ∧ ex.fileID ≠ "" then
    (doDetach env st (effKB mkb f.knowledgeID) ex.fileID).1
  else st

/-- Retention invariant for cycle proofs: key `k` holds an entry that either
is adapter-sourced (not the `"openwebui"` re-import marker) or whose path's
basename has been reported this cycle — in both cases orphan cleanup will
keep it. -/
def keptEntry (pres : List String) (st : SyncState) (k : String) : Prop :=
  ∃ e, lookupIdx st.fileIndex k = some e ∧
    (e.source ≠ "openwebui" ∨ pres.contains (baseName e.path) = true)

/-- An all-success client oracle, used by concrete witnesses. -/
def okEnv : SyncEnv :=
  ⟨fun n => "id" ++ toString n, fun _ => true, fun _ => true, fun _ => true, true, 7⟩

/-- A client oracle whose attach calls all fail. -/
def attachFailEnv : SyncEnv :=
  ⟨fun n => "id" ++ toString n, fun _ => true, fun _ => false, fun _ => true, true, 7⟩

/-- A client oracle for which persisting the index fails. -/
def saveFailEnv : SyncEnv :=
  ⟨fun n => "id" ++ toString n, fun _ => true, fun _ => true, fun _ => true, false, 7⟩

/-- The per-cycle work list: every fetched file paired with its adapter's
name, in processing order; failed fetches contribute nothing. -/
def flatFiles : List AdapterRun → List (String × AFile)
  | [] => []
  | a :: rest =>
    (match a.fetch with
      | none => []
      | some fs => fs.map (fun f => (a.name, f))) ++ flatFiles rest

/-- The files an adapter list contributes to a cycle. -/
def filesOf (adapters : List AdapterRun) : List AFile :=
  (flatFiles adapters).map Prod.snd

/-- The flattened form of `runAdapters`: process the work list in order,
accumulating the `currentFiles` basenames and the all-succeeded flag. -/
def foldSync (env : SyncEnv) (mkb : String) :
    List (String × AFile) → SyncState → List String → Bool →
    SyncState × List String × Bool
  | [], st, pres, ok => (st, pres, ok)
  | (src, f) :: rest, st, pres, ok =>
    let pres1 := pres ++ [baseName f.path]
    let r := syncFile env mkb st f src
    foldSync env mkb rest r.1 pres1 (ok && r.2)

/-- An index entry that orphan cleanup is guaranteed to keep: it is
adapter-sourced, or its path's basename was reported this cycle. -/
def keptMeta (pres : List String) (e : FileMetadata) : Prop :=
  e.source ≠ "openwebui" ∨ pres.contains (baseName e.path) = true

/-- The index already holds `f`'s content: a hash-equal entry under `f`'s
basename, or no entry under `f`'s basename but a hash-equal entry elsewhere.
In either case `syncFile` skips `f`. -/
def contentReady (idx : SyncIndex) (f : AFile) : Prop :=
  (∃ e, lookupIdx idx (baseName f.path) = some e ∧ e.hash = f.hash) ∨
  (lookupIdx idx (baseName f.path) = none ∧ ∃ kv ∈ idx, kv.2.hash = f.hash)

/-- Invariant carried through the first cycle's per-file loop, relative to
the starting index `idx0`, the processed work prefix `done` and the
accumulated `pres`: (1) every processed file has a surviving hash-equal
witness (at its basename, or — when its basename is absent — at the
basename of an earlier processed file); (2) every entry either is original
or was written for a processed file; (3) processed basenames are in `pres`;
(4) no original key has been erased; (5) keys stay duplicate-free. -/
def cycleInv (idx0 : SyncIndex) (done : List (String × AFile)) (pres : List String)
    (idx : SyncIndex) : Prop :=
  (∀ p ∈ done,
    (∃ e, lookupIdx idx (baseName p.2.path) = some e ∧ e.hash = p.2.hash ∧ keptMeta pres e) ∨
    (lookupIdx idx (baseName p.2.path) = none ∧
      ∃ q ∈ done, ∃ e, lookupIdx idx (baseName q.2.path) = some e ∧ e.hash = p.2.hash ∧
        keptMeta pres e)) ∧
  (∀ k e, lookupIdx idx k = some e → lookupIdx idx0 k = some e ∨
    ∃ q ∈ done, k = baseName q.2.path ∧ e.hash = q.2.hash ∧ e.path = q.2.path) ∧
  (∀ q ∈ done, pres.contains (baseName q.2.path) = true) ∧
  (∀ k e0, lookupIdx idx0 k = some e0 → ∃ e, lookupIdx idx k = some e) ∧
  ((idx.map Prod.fst).Nodup)

/-! ## Helper lemmas: index structure and operation counts -/

theorem lookupIdx_insertIdx_self (idx : SyncIndex) (k : String) (v : FileMetadata) :
    lookupIdx (insertIdx idx k v) k = some v := by
  induction idx with
  | nil => simp [insertIdx, lookupIdx]
  | cons hd tl ih =>
    by_cases h : hd.1 = k
    · simp [insertIdx, h, lookupIdx]
    · simpa [insertIdx, h, lookupIdx] using ih

theorem lookupIdx_insertIdx_ne (idx : SyncIndex) (k k' : String) (v : FileMetadata)
    (h : k ≠ k') : lookupIdx (insertIdx idx k v) k' = lookupIdx idx k' := by
  induction idx with
  | nil => simp [insertIdx, lookupIdx, h]
  | cons hd tl ih =>
    by_cases hk : hd.1 = k
    · simp [insertIdx, hk, lookupIdx, h]
    · by_cases hk' : hd.1 = k'
      · have h' : k' ≠ k := Ne.symm h
        simp [insertIdx, hk, lookupIdx, hk', h']
      · simpa [insertIdx, hk, lookupIdx, hk'] using ih

theorem lookupIdx_eraseIdx_ne (idx : SyncIndex) (k k' : String)
    (h : k ≠ k') : lookupIdx (eraseIdx idx k) k' = lookupIdx idx k' := by
  induction idx with
  | nil => simp [eraseIdx, lookupIdx]
  | cons hd tl ih =>
    by_cases hk : hd.1 = k
    · simpa [eraseIdx, hk, lookupIdx, h] using ih
    · by_cases hk' : hd.1 = k'
      · have h' : k' ≠ k := Ne.symm h
        simp [eraseIdx, hk, lookupIdx, hk', h']
      · simpa [eraseIdx, hk, lookupIdx, hk'] using ih

theorem findByHash_hash (idx : SyncIndex) (h : String) (e : FileMetadata)
    (hh : findByHash idx h = some e) : e.hash = h := by
  induction idx with
  | nil => simp [findByHash] at hh
  | cons hd tl ih =>
    by_cases hc : hd.2.hash = h
    · simp [findByHash, hc] at hh
      rw [← hh]; exact hc
    · simp [findByHash, hc] at hh
      exact ih hh

theorem foundOf_byHash_hash (idx : SyncIndex) (f : AFile) (ex : FileMetadata)
    (hf : foundOf idx f = some (ex, true)) : ex.hash = f.hash := by
  unfold foundOf at hf
  cases hl : lookupIdx idx (baseName f.path) with
  | some e => simp [hl] at hf
  | none =>
    cases hb : findByHash idx f.hash with
    | none => simp [hl, hb] at hf
    | some e =>
      simp [hl, hb] at hf
      rw [← hf]
      exact findByHash_hash idx f.hash e hb

theorem countUploads_append (a b : List SyncOp) :
    countUploads (a ++ b) = countUploads a + countUploads b := by
  simp [countUploads, List.filter_append]

theorem countAttaches_append (a b : List SyncOp) :
    countAttaches (a ++ b) = countAttaches a + countAttaches b := by
  simp [countAttaches, List.filter_append]

theorem countDetaches_append (a b : List SyncOp) :
    countDetaches (a ++ b) = countDetaches a + countDetaches b := by
  simp [countDetaches, List.filter_append]

theorem countUploads_detach (kb fid : String) :
    countUploads [SyncOp.detach kb fid] = 0 := by
  simp [countUploads, isUpload]

theorem countAttaches_detach (kb fid : String) :
    countAttaches [SyncOp.detach kb fid] = 0 := by
  simp [countAttaches, isAttach]

theorem countAttaches_upload (fn fid : String) :
    countAttaches [SyncOp.upload fn fid] = 0 := by
  simp [countAttaches, isAttach]

/-! ## Helper lemmas: `syncFile` case analysis -/

/-- `syncFile` unfolded to the three reachable cases: skip on equal hash;
fresh upload when nothing matched; detach-then-upload when an entry with a
different hash matched.  The hash-matched (`byHash = true`) case always has
an equal hash, hence always skips — the rename branch of `recordIndex` is
unreachable. -/
theorem syncFile_cases (env : SyncEnv) (mkb : String) (st : SyncState) (f : AFile)
    (source : String) :
    syncFile env mkb st f source =
      match foundOf st.fileIndex f with
      | none => uploadAttachRecord env mkb st f source none
      | some (ex, b) =>
        if ex.hash = f.hash then (st, true)
        else uploadAttachRecord env mkb (detachStep env mkb st f ex) f source (some (ex, b)) := by
  unfold syncFile
  cases hf : foundOf st.fileIndex f with
  | none => rfl
  | some p =>
    obtain ⟨ex, b⟩ := p
    by_cases hh : ex.hash = f.hash
    · simp [hh]
    · simp only [hh, if_false]
      by_cases hkb : effKB mkb ex.knowledgeID = effKB mkb f.knowledgeID
      · unfold syncUpdate detachStep
        by_cases hs : ex.source = "openwebui" <;>
          simp [hkb, hs, hh]
      · unfold detachStep
        simp [hkb]

theorem detachStep_fileIndex (env : SyncEnv) (mkb : String) (st : SyncState)
    (f : AFile) (ex : FileMetadata) :
    (detachStep env mkb st f ex).fileIndex = st.fileIndex := by
  unfold detachStep doDetach
  split <;> rfl

theorem detachStep_counts (env : SyncEnv) (mkb : String) (st : SyncState)
    (f : AFile) (ex : FileMetadata) :
    countUploads (detachStep env mkb st f ex).ops = countUploads st.ops ∧
      countAttaches (detachStep env mkb st f ex).ops = countAttaches st.ops := by
  unfold detachStep doDetach
  split
  · simp [countUploads_append, countAttaches_append, countUploads_detach, countAttaches_detach]
  · exact ⟨rfl, rfl⟩

theorem recordIndex_none_eq (env : SyncEnv) (st : SyncState) (f : AFile)
    (source fid kID : String) :
    recordIndex env st f source fid kID none =
      { st with fileIndex := insertIdx st.fileIndex (baseName f.path) (mkMeta env f source fid kID) } := rfl

theorem recordIndex_filename_eq (env : SyncEnv) (st : SyncState) (f : AFile)
    (source fid kID : String) (ex : FileMetadata) (hh : ex.hash ≠ f.hash) :
    recordIndex env st f source fid kID (some (ex, false)) =
      { st with fileIndex := insertIdx st.fileIndex (baseName f.path) (mkMeta env f source fid kID) } := by
  unfold recordIndex
  simp [hh]

theorem uploadAttachRecord_uploadFail (env : SyncEnv) (mkb : String) (st : SyncState)
    (f : AFile) (source : String) (found : Option (FileMetadata × Bool))
    (h : env.uploadOk (countUploads st.ops) = false) :
    uploadAttachRecord env mkb st f source found =
      ({ st with ops := st.ops ++ [.upload (baseName f.path) (env.uploadId (countUploads st.ops))] },
        false) := by
  unfold uploadAttachRecord
  simp [h]

theorem uploadAttachRecord_noKB (env : SyncEnv) (mkb : String) (st : SyncState)
    (f : AFile) (source : String) (found : Option (FileMetadata × Bool))
    (h : env.uploadOk (countUploads st.ops) = true) (hk : effKB mkb f.knowledgeID = "") :
    uploadAttachRecord env mkb st f source found =
      (recordIndex env
        { st with ops := st.ops ++ [.upload (baseName f.path) (env.uploadId (countUploads st.ops))] }
        f source (env.uploadId (countUploads st.ops)) (effKB mkb f.knowledgeID) found, true) := by
  unfold uploadAttachRecord
  simp [h, hk]

theorem uploadAttachRecord_attachFail (env : SyncEnv) (mkb : String) (st : SyncState)
    (f : AFile) (source : String) (found : Option (FileMetadata × Bool))
    (h : env.uploadOk (countUploads st.ops) = true) (hk : effKB mkb f.knowledgeID ≠ "")
    (ha : env.attachOk (countAttaches st.ops) = false) :
    uploadAttachRecord env mkb st f source found =
      ({ st with ops := st.ops ++
          [.upload (baseName f.path) (env.uploadId (countUploads st.ops)),
           .attach (effKB mkb f.knowledgeID) (env.uploadId (countUploads st.ops))] },
        false) := by
  unfold uploadAttachRecord
  have hc : countAttaches (st.ops ++ [SyncOp.upload (baseName f.path)
      (env.uploadId (countUploads st.ops))]) = countAttaches st.ops := by
    simp [countAttaches_append, countAttaches_upload]
  simp [h, hk, hc, ha]

theorem uploadAttachRecord_ok (env : SyncEnv) (mkb : String) (st : SyncState)
    (f : AFile) (source : String) (found : Option (FileMetadata × Bool))
    (h : env.uploadOk (countUploads st.ops) = true) (hk : effKB mkb f.knowledgeID ≠ "")
    (ha : env.attachOk (countAttaches st.ops) = true) :
    uploadAttachRecord env mkb st f source found =
      (recordIndex env
        { st with ops := st.ops ++
            [.upload (baseName f.path) (env.uploadId (countUploads st.ops)),
             .attach (effKB mkb f.knowledgeID) (env.uploadId (countUploads st.ops))] }
        f source (env.uploadId (countUploads st.ops)) (effKB mkb f.knowledgeID) found, true) := by
  unfold uploadAttachRecord
  have hc : countAttaches (st.ops ++ [SyncOp.upload (baseName f.path)
      (env.uploadId (countUploads st.ops))]) = countAttaches st.ops := by
    simp [countAttaches_append, countAttaches_upload]
  simp [h, hk, hc, ha]

theorem syncFile_fileIndex (env : SyncEnv) (mkb : String) (st : SyncState)
    (f : AFile) (source : String) :
    (syncFile env mkb st f source).1.fileIndex = st.fileIndex ∨
    ∃ fid kID, (syncFile env mkb st f source).1.fileIndex =
      insertIdx st.fileIndex (baseName f.path) (mkMeta env f source fid kID) := by
  rw [syncFile_cases]
  cases hf : foundOf st.fileIndex f with
  | none =>
    by_cases hu : env.uploadOk (countUploads st.ops) = true
    · by_cases hk : effKB mkb f.knowledgeID = ""
      · rw [uploadAttachRecord_noKB env mkb st f source none hu hk]
        right
        exact ⟨_, _, rfl⟩
      · by_cases ha : env.attachOk (countAttaches st.ops) = true
        · rw [uploadAttachRecord_ok env mkb st f source none hu hk ha]
          right
          exact ⟨_, _, rfl⟩
        · rw [uploadAttachRecord_attachFail env mkb st f source none hu hk
            (Bool.not_eq_true _ ▸ ha)]
          left; rfl
    · rw [uploadAttachRecord_uploadFail env mkb st f source none
        (Bool.not_eq_true _ ▸ hu)]
      left; rfl
  | some p =>
    obtain ⟨ex, b⟩ := p
    by_cases hh : ex.hash = f.hash
    · simp [hh]
    · simp only [hh, if_false]
      have hb : b = false := by
        cases b with
        | false => rfl
        | true => exact absurd (foundOf_byHash_hash st.fileIndex f ex hf) hh
      subst hb
      have hidx : (detachStep env mkb st f ex).fileIndex = st.fileIndex :=
        detachStep_fileIndex env mkb st f ex
      by_cases hu : env.uploadOk (countUploads (detachStep env mkb st f ex).ops) = true
      · by_cases hk : effKB mkb f.knowledgeID = ""
        · rw [uploadAttachRecord_noKB env mkb _ f source _ hu hk,
            recordIndex_filename_eq env _ f source _ _ ex hh]
          right
          refine ⟨env.uploadId (countUploads (detachStep env mkb st f ex).ops),
            effKB mkb f.knowledgeID, ?_⟩
          simp [hidx]
        · by_cases ha : env.attachOk (countAttaches (detachStep env mkb st f ex).ops) = true
          · rw [uploadAttachRecord_ok env mkb _ f source _ hu hk ha,
              recordIndex_filename_eq env _ f source _ _ ex hh]
            right
            refine ⟨env.uploadId (countUploads (detachStep env mkb st f ex).ops),
              effKB mkb f.knowledgeID, ?_⟩
            simp [hidx]
          · rw [uploadAttachRecord_attachFail env mkb _ f source _ hu hk
              (Bool.not_eq_true _ ▸ ha)]
            left; simpa using hidx
      · rw [uploadAttachRecord_uploadFail env mkb _ f source _
          (Bool.not_eq_true _ ▸ hu)]
        left; simpa using hidx

/-! ## Claim theorems -/

/-- C1 counterexample: with an index entry under the file's basename bound
to knowledge base K1 and a file targeting K2 with the **same** fingerprint,
`syncFile` performs no upload, no attach and no index rewrite at all — it
returns on the unconditional equal-hash skip (manager.go line 252) before
the knowledge-base comparison, so the claimed migration does not happen. -/
theorem syncFile_sameHash_migration_counterexample :
    let ex : FileMetadata := ⟨"a/README.md", "h1", "fid1", "github", "K1", 0, 0⟩
    let st : SyncState := ⟨[("README.md", ex)], []⟩
    let f : AFile := ⟨"a/README.md", [104], "h1", 5, "github", "K2"⟩
    lookupIdx st.fileIndex (baseName f.path) = some ex ∧
      effKB "" ex.knowledgeID ≠ effKB "" f.knowledgeID ∧
      ex.hash = f.hash ∧
      syncFile okEnv "" st f "github" = (st, true) := by decide

/-- C1 (amended): when an index entry exists under the file's basename, its
effective knowledge base differs from the file's effective target, **and the
fingerprints also differ**, `syncFile` migrates: exactly one upload and one
attach to the new knowledge base (no detach), and the entry is rewritten to
the new knowledge base and the new downstream ID. -/
theorem syncFile_migrate (env : SyncEnv) (mkb : String) (st : SyncState) (f : AFile)
    (source : String) (ex : FileMetadata)
    (hl : lookupIdx st.fileIndex (baseName f.path) = some ex)
    (hkb : effKB mkb ex.knowledgeID ≠ effKB mkb f.knowledgeID)
    (hh : ex.hash ≠ f.hash)
    (hu : env.uploadOk (countUploads st.ops) = true)
    (hk : effKB mkb f.knowledgeID ≠ "")
    (ha : env.attachOk (countAttaches st.ops) = true) :
    (syncFile env mkb st f source).2 = true ∧
      (syncFile env mkb st f source).1.ops = st.ops ++
        [.upload (baseName f.path) (env.uploadId (countUploads st.ops)),
         .attach (effKB mkb f.knowledgeID) (env.uploadId (countUploads st.ops))] ∧
      (syncFile env mkb st f source).1.fileIndex =
        insertIdx st.fileIndex (baseName f.path)
          (mkMeta env f source (env.uploadId (countUploads st.ops)) (effKB mkb f.knowledgeID)) ∧
      lookupIdx (syncFile env mkb st f source).1.fileIndex (baseName f.path) =
        some (mkMeta env f source (env.uploadId (countUploads st.ops)) (effKB mkb f.knowledgeID)) := by
  have hfound : foundOf st.fileIndex f = some (ex, false) := by
    unfold foundOf
    rw [hl]
  have hds : detachStep env mkb st f ex = st := by
    unfold detachStep
    simp [hkb]
  rw [syncFile_cases, hfound]
  simp only [hh, if_false]
  rw [hds, uploadAttachRecord_ok env mkb st f source _ hu hk ha,
    recordIndex_filename_eq env _ f source _ _ ex hh]
  refine ⟨rfl, rfl, rfl, ?_⟩
  exact lookupIdx_insertIdx_self _ _ _

/-- C1 amended witness: a concrete migration (same path, changed content,
knowledge base K1 → K2) uploading once and attaching once to K2. -/
theorem syncFile_migrate_witness :
    (syncFile okEnv "" ⟨[("README.md", ⟨"a/README.md", "h1", "fid1", "github", "K1", 0, 0⟩)], []⟩
        ⟨"a/README.md", [104], "h2", 5, "github", "K2"⟩ "github").2 = true ∧
      (syncFile okEnv "" ⟨[("README.md", ⟨"a/README.md", "h1", "fid1", "github", "K1", 0, 0⟩)], []⟩
          ⟨"a/README.md", [104], "h2", 5, "github", "K2"⟩ "github").1.ops =
        [] ++ [.upload (baseName "a/README.md") (okEnv.uploadId (countUploads [])),
               .attach (effKB "" "K2") (okEnv.uploadId (countUploads []))] ∧
      (syncFile okEnv "" ⟨[("README.md", ⟨"a/README.md", "h1", "fid1", "github", "K1", 0, 0⟩)], []⟩
          ⟨"a/README.md", [104], "h2", 5, "github", "K2"⟩ "github").1.fileIndex =
        insertIdx [("README.md", ⟨"a/README.md", "h1", "fid1", "github", "K1", 0, 0⟩)]
          (baseName "a/README.md")
          (mkMeta okEnv ⟨"a/README.md", [104], "h2", 5, "github", "K2"⟩ "github"
            (okEnv.uploadId (countUploads [])) (effKB "" "K2")) ∧
      lookupIdx (syncFile okEnv ""
          ⟨[("README.md", ⟨"a/README.md", "h1", "fid1", "github", "K1", 0, 0⟩)], []⟩
          ⟨"a/README.md", [104], "h2", 5, "github", "K2"⟩ "github").1.fileIndex
          (baseName "a/README.md") =
        some (mkMeta okEnv ⟨"a/README.md", [104], "h2", 5, "github", "K2"⟩ "github"
          (okEnv.uploadId (countUploads [])) (effKB "" "K2")) :=
  syncFile_migrate okEnv "" ⟨[("README.md", ⟨"a/README.md", "h1", "fid1", "github", "K1", 0, 0⟩)], []⟩
    ⟨"a/README.md", [104], "h2", 5, "github", "K2"⟩ "github"
    ⟨"a/README.md", "h1", "fid1", "github", "K1", 0, 0⟩
    (by decide) (by decide) (by decide) (by decide) (by decide) (by decide)

/-- C2: evaluating the engine at the failing input.  The index holds
`"README.md"` with fingerprint `h1`; the adapter reports the renamed file
`docs/GUIDE.md` with the same fingerprint.  The entry is found by the hash
scan (`matchReason == "hash"`), but the unconditional equal-hash skip at
manager.go line 252 returns before the rename logic of lines 342-346, so no
key rename happens: the old key survives, no `"GUIDE.md"` key is written,
and no upload is performed.  The claimed (and code-commented) rename-branch
behaviour is unreachable. -/
theorem syncFile_rename_unreachable :
    let ex : FileMetadata := ⟨"README.md", "h1", "fid1", "github", "K1", 0, 0⟩
    let st : SyncState := ⟨[("README.md", ex)], []⟩
    let f : AFile := ⟨"docs/GUIDE.md", [104], "h1", 5, "github", "K1"⟩
    lookupIdx st.fileIndex (baseName f.path) = none ∧
      findByHash st.fileIndex f.hash = some ex ∧
      syncFile okEnv "" st f "github" = (st, true) ∧
      lookupIdx (syncFile okEnv "" st f "github").1.fileIndex "GUIDE.md" = none ∧
      lookupIdx (syncFile okEnv "" st f "github").1.fileIndex "README.md" = some ex := by
  decide

/-- C6 counterexample: a cycle in which persisting the index fails
(`saveFailEnv.saveIndexOk = false`) still returns success — `SyncFiles`
logs the write error (manager.go lines 216-218) and unconditionally returns
`nil` (line 221), so the index-IO error does not propagate. -/
theorem syncFiles_saveFail_counterexample :
    saveFailEnv.saveIndexOk = false ∧
      (syncFiles saveFailEnv "" [] [⟨"github", some []⟩]).ret = true := by decide

/-- C6 (amended): when persisting the index fails, the cycle still returns
success: the failing save is recorded (and logged by the code) but
`SyncFiles` returns `nil` regardless. -/
theorem syncFiles_saveFail_logged_only (env : SyncEnv) (mkb : String) (idx : SyncIndex)
    (adapters : List AdapterRun) (hs : env.saveIndexOk = false) :
    (syncFiles env mkb idx adapters).ret = true ∧
      SyncOp.saveIndex false ∈ (syncFiles env mkb idx adapters).state.ops := by
  unfold syncFiles
  refine ⟨rfl, ?_⟩
  simp [hs]

/-- C6 amended witness. -/
theorem syncFiles_saveFail_logged_only_witness :
    (syncFiles saveFailEnv "" [] []).ret = true ∧
      SyncOp.saveIndex false ∈ (syncFiles saveFailEnv "" [] []).state.ops :=
  syncFiles_saveFail_logged_only saveFailEnv "" [] [] (by decide)

/-- C9: the downstream detach treats HTTP 404 (file not found) as success
for every knowledge base ID and artifact ID — removing an already-removed
artifact never surfaces as an error (client.go lines 418-422). -/
theorem removeFileFromKnowledge_notFound_ok (knowledgeID fileID : String) :
    removeFileFromKnowledge knowledgeID fileID 404 = .ok () := rfl

/-- C10: whenever the attach call is bound to fail (and an effective target
knowledge base exists, so an attach would be attempted), a per-file sync
leaves the file index exactly as it was: `syncFile` returns the attach error
(manager.go line 329) before the index rewrite of lines 336-357, so the
fresh downstream ID is recorded nowhere.  Moreover the sync either failed
or skipped without uploading. -/
theorem syncFile_attachFail_noIndexChange (env : SyncEnv) (mkb : String) (st : SyncState)
    (f : AFile) (source : String)
    (hu : env.uploadOk (countUploads st.ops) = true)
    (ha : env.attachOk (countAttaches st.ops) = false)
    (hk : effKB mkb f.knowledgeID ≠ "") :
    (syncFile env mkb st f source).1.fileIndex = st.fileIndex ∧
      ((syncFile env mkb st f source).2 = false ∨ syncFile env mkb st f source = (st, true)) := by
  rw [syncFile_cases]
  cases hf : foundOf st.fileIndex f with
  | none =>
    rw [uploadAttachRecord_attachFail env mkb st f source none hu hk ha]
    exact ⟨rfl, Or.inl rfl⟩
  | some p =>
    obtain ⟨ex, b⟩ := p
    by_cases hh : ex.hash = f.hash
    · simp [hh]
    · simp only [hh, if_false]
      have hcu := (detachStep_counts env mkb st f ex).1
      have hca := (detachStep_counts env mkb st f ex).2
      rw [uploadAttachRecord_attachFail env mkb _ f source _
        (by rw [hcu]; exact hu) hk (by rw [hca]; exact ha)]
      exact ⟨by simp [detachStep_fileIndex], Or.inl rfl⟩

/-- C10 witness: a concrete new file whose upload succeeds and whose attach
fails leaves the (empty) index empty. -/
theorem syncFile_attachFail_witness :
    (syncFile attachFailEnv "" ⟨[], []⟩ ⟨"a/x.md", [1], "h", 0, "github", "K1"⟩ "github").1.fileIndex
        = SyncState.fileIndex ⟨[], []⟩ ∧
      ((syncFile attachFailEnv "" ⟨[], []⟩ ⟨"a/x.md", [1], "h", 0, "github", "K1"⟩ "github").2 = false ∨
        syncFile attachFailEnv "" ⟨[], []⟩ ⟨"a/x.md", [1], "h", 0, "github", "K1"⟩ "github" =
          (⟨[], []⟩, true)) :=
  syncFile_attachFail_noIndexChange attachFailEnv "" ⟨[], []⟩
    ⟨"a/x.md", [1], "h", 0, "github", "K1"⟩ "github" (by decide) (by decide) (by decide)

/-! ## Helper lemmas: orphan cleanup characterization -/

theorem dropWhile_head_false (p : Char → Bool) (l : List Char) (c : Char) (cs : List Char)
    (h : l.dropWhile p = c :: cs) : p c = false := by
  induction l with
  | nil => simp at h
  | cons a as ih =>
    by_cases hp : p a = true
    · rw [List.dropWhile_cons_of_pos hp] at h
      exact ih h
    · rw [List.dropWhile_cons_of_neg hp] at h
      cases h
      simpa using hp

theorem baseName_ne_empty (s : String) : baseName s ≠ "" := by
  unfold baseName
  by_cases h0 : s = ""
  · simp [h0]
  · simp only [h0, if_false]
    show (if s.toList.reverse.dropWhile (fun c => decide (c = '/')) = [] then "/"
      else String.mk ((s.toList.reverse.dropWhile (fun c => decide (c = '/'))).takeWhile
        (fun c => decide (c ≠ '/'))).reverse) ≠ ""
    cases hcons : s.toList.reverse.dropWhile (fun c => decide (c = '/')) with
    | nil => simp [hcons]
    | cons c cs =>
      have hne : (c :: cs : List Char) ≠ [] := by simp
      rw [if_neg hne]
      have hc : decide (c = '/') = false :=
        dropWhile_head_false _ _ _ _ hcons
      have hc' : (c ≠ '/') := by simpa using hc
      rw [List.takeWhile_cons_of_pos (by simpa using hc')]
      intro hcontra
      have hlist := congrArg String.toList hcontra
      simp at hlist

/-- The orphan condition stated as in the spec: the dead `filename == ""`
fallback never fires because `filepath.Base` never returns the empty
string. -/
theorem orphanCond_iff (present : List String) (k : String) (e : FileMetadata) :
    orphanCond present (k, e) ↔
      (¬ present.contains (baseName e.path) = true ∧
        e.source = "openwebui" ∧ e.fileID ≠ "") := by
  simp [orphanCond, baseName_ne_empty e.path]

theorem lookupIdx_mem (idx : SyncIndex) (k : String) (e : FileMetadata)
    (h : lookupIdx idx k = some e) : (k, e) ∈ idx := by
  induction idx with
  | nil => simp [lookupIdx] at h
  | cons hd tl ih =>
    by_cases hk : hd.1 = k
    · have he : hd.2 = e := by simpa [lookupIdx, hk] using h
      refine List.mem_cons.mpr (Or.inl ?_)
      rw [← hk, ← he]
    · have h' : lookupIdx tl k = some e := by simpa [lookupIdx, hk] using h
      exact List.mem_cons_of_mem _ (ih h')

theorem lookupIdx_isSome_of_mem (idx : SyncIndex) (k : String) (v : FileMetadata)
    (h : (k, v) ∈ idx) : (lookupIdx idx k).isSome := by
  induction idx with
  | nil => simp at h
  | cons hd tl ih =>
    by_cases hk : hd.1 = k
    · simp [lookupIdx, hk]
    · rcases List.mem_cons.mp h with heq | hmem
      · rw [← heq] at hk; simp at hk
      · simpa [lookupIdx, hk] using ih hmem

theorem lookupIdx_of_mem_nodup (idx : SyncIndex) (k : String) (v : FileMetadata)
    (hnd : (idx.map Prod.fst).Nodup) (h : (k, v) ∈ idx) :
    lookupIdx idx k = some v := by
  induction idx with
  | nil => simp at h
  | cons hd tl ih =>
    rcases List.mem_cons.mp h with heq | hmem
    · rw [← heq]
      simp [lookupIdx]
    · have hk : hd.1 ≠ k := by
        intro hcontra
        have : k ∈ tl.map Prod.fst := List.mem_map_of_mem Prod.fst hmem
        rw [List.map_cons, List.nodup_cons, hcontra] at hnd
        exact hnd.1 this
      have hnd' : (tl.map Prod.fst).Nodup := by
        rw [List.map_cons, List.nodup_cons] at hnd
        exact hnd.2
      simpa [lookupIdx, hk] using ih hnd' hmem

theorem lookupIdx_eq_none_iff (idx : SyncIndex) (k : String) :
    lookupIdx idx k = none ↔ k ∉ idx.map Prod.fst := by
  induction idx with
  | nil => simp [lookupIdx]
  | cons hd tl ih =>
    by_cases h : hd.1 = k
    · simp [lookupIdx, h]
    · rw [List.map_cons]
      simp only [List.mem_cons, not_or]
      constructor
      · intro hn
        have h' : lookupIdx tl k = none := by simpa [lookupIdx, h] using hn
        exact ⟨fun hc => h hc.symm, ih.mp h'⟩
      · intro hn
        have := ih.mpr hn.2
        simpa [lookupIdx, h] using this

theorem eraseIdx_eq_filter (idx : SyncIndex) (k : String) :
    eraseIdx idx k = idx.filter (fun kv => !decide (kv.1 = k)) := by
  induction idx with
  | nil => rfl
  | cons hd tl ih =>
    by_cases h : hd.1 = k <;> simp [eraseIdx, h, ih, List.filter_cons]

theorem lookupIdx_filter (p : String × FileMetadata → Bool) (idx : SyncIndex)
    (k : String) (e : FileMetadata)
    (hnd : (idx.map Prod.fst).Nodup) (h : lookupIdx idx k = some e) :
    lookupIdx (idx.filter p) k = if p (k, e) then some e else none := by
  induction idx with
  | nil => simp [lookupIdx] at h
  | cons hd tl ih =>
    have hnd1 : hd.1 ∉ tl.map Prod.fst := by
      rw [List.map_cons, List.nodup_cons] at hnd
      exact hnd.1
    have hnd2 : (tl.map Prod.fst).Nodup := by
      rw [List.map_cons, List.nodup_cons] at hnd
      exact hnd.2
    by_cases hk : hd.1 = k
    · have he : hd.2 = e := by simpa [lookupIdx, hk] using h
      have hdk : hd = (k, e) := by rw [← hk, ← he]
      have hnonef : lookupIdx (tl.filter p) k = none := by
        rw [lookupIdx_eq_none_iff]
        intro hc
        rcases List.mem_map.mp hc with ⟨kv, hkv, hfst⟩
        apply hnd1
        rw [hk]
        exact hfst ▸ List.mem_map_of_mem Prod.fst (List.mem_of_mem_filter hkv)
      rw [hdk]
      by_cases hp : p (k, e) = true
      · rw [List.filter_cons_of_pos hp]
        simp [lookupIdx, hp]
      · rw [List.filter_cons_of_neg (by simpa using hp)]
        simp [hnonef, hp]
    · have h' : lookupIdx tl k = some e := by simpa [lookupIdx, hk] using h
      by_cases hp : p hd = true
      · rw [List.filter_cons_of_pos hp]
        simpa [lookupIdx, hk] using ih hnd2 h'
      · rw [List.filter_cons_of_neg (by simpa using hp)]
        exact ih hnd2 h'

theorem removeOrphans_spec (env : SyncEnv) (mkb : String) (ks : List String)
    (st : SyncState) (hnd : ks.Nodup) :
    (removeOrphans env mkb st ks).fileIndex =
      st.fileIndex.filter (fun kv => !(ks.contains kv.1)) ∧
    (removeOrphans env mkb st ks).ops =
      st.ops ++ ks.filterMap (fun k => (lookupIdx st.fileIndex k).bind (orphanDetachOf mkb)) := by
  induction ks generalizing st with
  | nil =>
    constructor
    · simp [removeOrphans]
    · simp [removeOrphans]
  | cons k rest ih =>
    have hndr : rest.Nodup := (List.nodup_cons.mp hnd).2
    have hknr : k ∉ rest := (List.nodup_cons.mp hnd).1
    have hlkeq : ∀ k' ∈ rest,
        lookupIdx (eraseIdx st.fileIndex k) k' = lookupIdx st.fileIndex k' :=
      fun k' hk' => lookupIdx_eraseIdx_ne st.fileIndex k k' (fun hc => hknr (hc ▸ hk'))
    have hfilt : (eraseIdx st.fileIndex k).filter (fun kv => !(rest.contains kv.1)) =
        st.fileIndex.filter (fun kv => !((k :: rest).contains kv.1)) := by
      rw [eraseIdx_eq_filter, List.filter_filter]
      apply List.filter_congr
      intro kv _
      by_cases hc : kv.1 = k <;> simp [hc, List.contains_cons]
    have hmap : rest.filterMap
          (fun k' => (lookupIdx (eraseIdx st.fileIndex k) k').bind (orphanDetachOf mkb)) =
        rest.filterMap (fun k' => (lookupIdx st.fileIndex k').bind (orphanDetachOf mkb)) :=
      List.filterMap_congr (fun k' hk' => by rw [hlkeq k' hk'])
    cases hlk : lookupIdx st.fileIndex k with
    | none =>
      simp only [removeOrphans, hlk]
      have hres := ih { st with fileIndex := eraseIdx st.fileIndex k } hndr
      refine ⟨?_, ?_⟩
      · rw [hres.1]
        exact hfilt
      · rw [hres.2]
        show st.ops ++ rest.filterMap
            (fun k' => (lookupIdx (eraseIdx st.fileIndex k) k').bind (orphanDetachOf mkb)) =
          st.ops ++ (k :: rest).filterMap
            (fun k' => (lookupIdx st.fileIndex k').bind (orphanDetachOf mkb))
        rw [hmap, List.filterMap_cons]
        simp only [hlk, Option.none_bind]
    | some md =>
      simp only [removeOrphans, hlk]
      have hres := ih ⟨eraseIdx st.fileIndex k, st.ops ++ (orphanDetachOf mkb md).toList⟩ hndr
      refine ⟨?_, ?_⟩
      · rw [hres.1]
        exact hfilt
      · rw [hres.2]
        show (st.ops ++ (orphanDetachOf mkb md).toList) ++ rest.filterMap
            (fun k' => (lookupIdx (eraseIdx st.fileIndex k) k').bind (orphanDetachOf mkb)) =
          st.ops ++ (k :: rest).filterMap
            (fun k' => (lookupIdx st.fileIndex k').bind (orphanDetachOf mkb))
        rw [List.append_assoc, hmap, List.filterMap_cons]
        simp only [hlk, Option.some_bind]
        cases horph : orphanDetachOf mkb md <;> simp [horph]

/-- C4 counterexample: an index entry satisfying all three orphan conditions
but with an empty recorded knowledge base (and no process-wide fallback) is
removed from the index with **no** detach call at all — refuting "every
removed orphan is first detached from its recorded knowledge base". -/
theorem cleanup_orphan_counterexample :
    let md : FileMetadata := ⟨"gone.md", "h", "fid9", "openwebui", "", 0, 0⟩
    let st : SyncState := ⟨[("gone.md", md)], []⟩
    ¬ ([] : List String).contains (baseName md.path) = true ∧
      md.source = "openwebui" ∧ md.fileID ≠ "" ∧
      (cleanupOrphanedFiles okEnv "" st []).fileIndex = [] ∧
      (cleanupOrphanedFiles okEnv "" st []).ops = [] := by
  decide

/-- C4 (amended): at the end of a cycle, `cleanupOrphanedFiles` removes an
index entry iff (i) the basename of its recorded path is not among the
basenames reported by any adapter this cycle, (ii) its source equals the
re-import marker `"openwebui"`, and (iii) its downstream ID is non-empty;
and the detaches performed are exactly one per removed orphan whose
*effective* knowledge base — the recorded one, or the process-wide fallback
when the recorded one is empty — is non-empty, targeted at that effective
knowledge base (an orphan with no effective knowledge base is removed
without a detach; detach results are ignored). -/
theorem cleanupOrphanedFiles_spec (env : SyncEnv) (mkb : String) (st : SyncState)
    (present : List String) (hnd : (st.fileIndex.map Prod.fst).Nodup) :
    (∀ k e, lookupIdx st.fileIndex k = some e →
      (lookupIdx (cleanupOrphanedFiles env mkb st present).fileIndex k = none ↔
        (¬ present.contains (baseName e.path) = true ∧
          e.source = "openwebui" ∧ e.fileID ≠ ""))) ∧
    (cleanupOrphanedFiles env mkb st present).ops =
      st.ops ++ (st.fileIndex.filter (fun kv => decide (orphanCond present kv))).filterMap
        (fun kv => orphanDetachOf mkb kv.2) := by
  unfold cleanupOrphanedFiles
  have hsub : ((st.fileIndex.filter (fun kv => decide (orphanCond present kv))).map
      Prod.fst).Nodup :=
    List.Nodup.sublist (List.Sublist.map _ (List.filter_sublist _)) hnd
  obtain ⟨hidx, hops⟩ := removeOrphans_spec env mkb _ st hsub
  constructor
  · intro k e hke
    rw [← orphanCond_iff present k e]
    rw [hidx, lookupIdx_filter _ st.fileIndex k e hnd hke]
    have hiff : ((st.fileIndex.filter (fun kv => decide (orphanCond present kv))).map
        Prod.fst).contains k = true ↔ orphanCond present (k, e) := by
      constructor
      · intro hc
        have hk : k ∈ (st.fileIndex.filter
            (fun kv => decide (orphanCond present kv))).map Prod.fst := by
          simpa using hc
        rcases List.mem_map.mp hk with ⟨kv, hkvf, hfst⟩
        have hkvidx : kv ∈ st.fileIndex := List.mem_of_mem_filter hkvf
        have hlkv : lookupIdx st.fileIndex kv.1 = some kv.2 :=
          lookupIdx_of_mem_nodup _ _ _ hnd hkvidx
        rw [hfst, hke] at hlkv
        have hcond : orphanCond present kv := by
          have := (List.mem_filter.mp hkvf).2
          simpa using this
        have hkv : kv = (k, e) := by
          have h2 : kv.2 = e := by
            injection hlkv.symm
          rw [← hfst, ← h2]
        rw [hkv] at hcond
        exact hcond
      · intro hc
        have hmem : (k, e) ∈ st.fileIndex := lookupIdx_mem _ _ _ hke
        have : k ∈ (st.fileIndex.filter
            (fun kv => decide (orphanCond present kv))).map Prod.fst :=
          List.mem_map_of_mem Prod.fst
            (List.mem_filter.mpr ⟨hmem, by simpa using hc⟩)
        simpa using this
    by_cases hc : orphanCond present (k, e)
    · rw [hiff.mpr hc]
      simp [hc]
    · have hcf : ((st.fileIndex.filter (fun kv => decide (orphanCond present kv))).map
          Prod.fst).contains k = false := by
        rw [← Bool.not_eq_true]
        intro hct
        exact hc (hiff.mp hct)
      rw [hcf]
      simp [hc]
  · rw [hops]
    congr 1
    rw [List.filterMap_map]
    apply List.filterMap_congr
    intro kv hkv
    have hkvidx : kv ∈ st.fileIndex := List.mem_of_mem_filter hkv
    have hlkv : lookupIdx st.fileIndex kv.1 = some kv.2 :=
      lookupIdx_of_mem_nodup _ _ _ hnd hkvidx
    simp [Function.comp, hlkv]

/-- C4 amended witness: a concrete cleanup on a two-entry index removes the
re-imported entry (detaching it from its recorded knowledge base) and keeps
the adapter-sourced one. -/
theorem cleanupOrphanedFiles_spec_witness :
    (lookupIdx (cleanupOrphanedFiles okEnv ""
        ⟨[("gone.md", ⟨"gone.md", "h", "fid9", "openwebui", "K1", 0, 0⟩),
          ("keep.md", ⟨"keep.md", "h2", "fid2", "github", "K1", 0, 0⟩)], []⟩ []).fileIndex
      "gone.md" = none) ∧
    (cleanupOrphanedFiles okEnv ""
        ⟨[("gone.md", ⟨"gone.md", "h", "fid9", "openwebui", "K1", 0, 0⟩),
          ("keep.md", ⟨"keep.md", "h2", "fid2", "github", "K1", 0, 0⟩)], []⟩ []).ops =
      [] ++ (([("gone.md", ⟨"gone.md", "h", "fid9", "openwebui", "K1", 0, 0⟩),
          ("keep.md", ⟨"keep.md", "h2", "fid2", "github", "K1", 0, 0⟩)] : SyncIndex).filter
            (fun kv => decide (orphanCond [] kv))).filterMap
        (fun kv => orphanDetachOf "" kv.2) :=
  ⟨((cleanupOrphanedFiles_spec okEnv ""
      ⟨[("gone.md", ⟨"gone.md", "h", "fid9", "openwebui", "K1", 0, 0⟩),
        ("keep.md", ⟨"keep.md", "h2", "fid2", "github", "K1", 0, 0⟩)], []⟩ [] (by decide)).1
      "gone.md" ⟨"gone.md", "h", "fid9", "openwebui", "K1", 0, 0⟩ (by decide)).mpr (by decide),
   (cleanupOrphanedFiles_spec okEnv ""
      ⟨[("gone.md", ⟨"gone.md", "h", "fid9", "openwebui", "K1", 0, 0⟩),
        ("keep.md", ⟨"keep.md", "h2", "fid2", "github", "K1", 0, 0⟩)], []⟩ [] (by decide)).2⟩

/-! ## Helper lemmas: retention across a cycle -/

theorem mem_keys_insertIdx (idx : SyncIndex) (k : String) (v : FileMetadata) (x : String)
    (h : x ∈ (insertIdx idx k v).map Prod.fst) : x ∈ idx.map Prod.fst ∨ x = k := by
  induction idx with
  | nil =>
    simp [insertIdx] at h
    exact Or.inr h
  | cons hd tl ih =>
    by_cases hk : hd.1 = k
    · simp only [insertIdx, hk, if_pos rfl] at h
      rcases List.mem_map.mp h with ⟨kv, hkv, hfst⟩
      rcases List.mem_cons.mp hkv with heq | hmem
      · right; rw [← hfst, heq]
      · left
        rw [List.map_cons]
        exact List.mem_cons_of_mem _ (hfst ▸ List.mem_map_of_mem Prod.fst hmem)
    · simp only [insertIdx, hk, if_false] at h
      rw [List.map_cons] at h
      rcases List.mem_cons.mp h with heq | hmem
      · left
        rw [List.map_cons, heq]
        exact List.mem_cons_self _ _
      · rcases ih hmem with hin | hx
        · left
          rw [List.map_cons]
          exact List.mem_cons_of_mem _ hin
        · right; exact hx

theorem nodup_insertIdx (idx : SyncIndex) (k : String) (v : FileMetadata)
    (h : (idx.map Prod.fst).Nodup) : ((insertIdx idx k v).map Prod.fst).Nodup := by
  induction idx with
  | nil => simp [insertIdx]
  | cons hd tl ih =>
    rw [List.map_cons, List.nodup_cons] at h
    by_cases hk : hd.1 = k
    · simp only [insertIdx]
      rw [if_pos hk, List.map_cons, List.nodup_cons]
      exact ⟨hk ▸ h.1, h.2⟩
    · simp only [insertIdx]
      rw [if_neg hk, List.map_cons, List.nodup_cons]
      refine ⟨?_, ih h.2⟩
      intro hc
      rcases mem_keys_insertIdx tl k v hd.1 hc with hin | hx
      · exact h.1 hin
      · exact hk hx

theorem syncFile_nodup (env : SyncEnv) (mkb : String) (st : SyncState) (f : AFile)
    (source : String) (h : (st.fileIndex.map Prod.fst).Nodup) :
    ((syncFile env mkb st f source).1.fileIndex.map Prod.fst).Nodup := by
  rcases syncFile_fileIndex env mkb st f source with hidx | ⟨fid, kID, hidx⟩
  · rw [hidx]; exact h
  · rw [hidx]; exact nodup_insertIdx _ _ _ h

theorem syncFile_kept (env : SyncEnv) (mkb : String) (st : SyncState) (f : AFile)
    (source : String) (pres pres' : List String)
    (hsub : ∀ x, pres.contains x = true → pres'.contains x = true)
    (hf : pres'.contains (baseName f.path) = true)
    (k : String) (h : keptEntry pres st k) :
    keptEntry pres' (syncFile env mkb st f source).1 k := by
  obtain ⟨e, hl, hsrc⟩ := h
  rcases syncFile_fileIndex env mkb st f source with hidx | ⟨fid, kID, hidx⟩
  · refine ⟨e, by rw [hidx]; exact hl, ?_⟩
    rcases hsrc with hs | hs
    · exact Or.inl hs
    · exact Or.inr (hsub _ hs)
  · by_cases hk : baseName f.path = k
    · refine ⟨mkMeta env f source fid kID, ?_, Or.inr ?_⟩
      · rw [hidx, ← hk]
        exact lookupIdx_insertIdx_self _ _ _
      · simpa [mkMeta] using hf
    · refine ⟨e, ?_, ?_⟩
      · rw [hidx, lookupIdx_insertIdx_ne _ _ _ _ hk]
        exact hl
      · rcases hsrc with hs | hs
        · exact Or.inl hs
        · exact Or.inr (hsub _ hs)

theorem contains_append_left (pres : List String) (l : List String) (x : String)
    (h : pres.contains x = true) : (pres ++ l).contains x = true := by
  have hx : x ∈ pres := by simpa using h
  simpa using List.mem_append_left l hx

theorem contains_append_self (pres : List String) (x : String) :
    (pres ++ [x]).contains x = true := by
  simp

theorem syncAdapterFiles_kept (env : SyncEnv) (mkb : String) (files : List AFile)
    (src : String) (st : SyncState) (pres : List String) (ok : Bool) (k : String)
    (h : keptEntry pres st k) (hnd : (st.fileIndex.map Prod.fst).Nodup) :
    keptEntry (syncAdapterFiles env mkb files src st pres ok).2.1
        (syncAdapterFiles env mkb files src st pres ok).1 k ∧
      (((syncAdapterFiles env mkb files src st pres ok).1.fileIndex.map Prod.fst).Nodup) ∧
      (∀ x, pres.contains x = true →
        (syncAdapterFiles env mkb files src st pres ok).2.1.contains x = true) := by
  induction files generalizing st pres ok with
  | nil => exact ⟨h, hnd, fun x hx => hx⟩
  | cons f rest ih =>
    have hkept1 : keptEntry (pres ++ [baseName f.path]) (syncFile env mkb st f src).1 k :=
      syncFile_kept env mkb st f src pres (pres ++ [baseName f.path])
        (fun x hx => contains_append_left pres _ x hx)
        (contains_append_self pres (baseName f.path)) k h
    have hnd1 : ((syncFile env mkb st f src).1.fileIndex.map Prod.fst).Nodup :=
      syncFile_nodup env mkb st f src hnd
    have hres := ih (syncFile env mkb st f src).1 (pres ++ [baseName f.path])
      (ok && (syncFile env mkb st f src).2) hkept1 hnd1
    refine ⟨hres.1, hres.2.1, ?_⟩
    intro x hx
    exact hres.2.2 x (contains_append_left pres _ x hx)

theorem runAdapters_kept (env : SyncEnv) (mkb : String) (adapters : List AdapterRun)
    (st : SyncState) (pres : List String) (ok : Bool) (k : String)
    (h : keptEntry pres st k) (hnd : (st.fileIndex.map Prod.fst).Nodup) :
    keptEntry (runAdapters env mkb adapters st pres ok).2.1
        (runAdapters env mkb adapters st pres ok).1 k ∧
      (((runAdapters env mkb adapters st pres ok).1.fileIndex.map Prod.fst).Nodup) := by
  induction adapters generalizing st pres ok with
  | nil => exact ⟨h, hnd⟩
  | cons a rest ih =>
    cases haf : a.fetch with
    | none =>
      simp only [runAdapters, haf]
      exact ih st pres ok h hnd
    | some files =>
      simp only [runAdapters, haf]
      have hres := syncAdapterFiles_kept env mkb files a.name st pres ok k h hnd
      exact ih _ _ _ hres.1 hres.2.1

theorem removeOrphans_lookup_notin (env : SyncEnv) (mkb : String) (ks : List String)
    (st : SyncState) (k : String) (hk : k ∉ ks) :
    lookupIdx (removeOrphans env mkb st ks).fileIndex k = lookupIdx st.fileIndex k := by
  induction ks generalizing st with
  | nil => rfl
  | cons k' rest ih =>
    have hkr : k ∉ rest := fun hc => hk (List.mem_cons_of_mem _ hc)
    have hkk : k' ≠ k := fun hc => hk (hc ▸ List.mem_cons_self _ _)
    cases hlk : lookupIdx st.fileIndex k' with
    | none =>
      simp only [removeOrphans, hlk]
      rw [ih _ hkr]
      exact lookupIdx_eraseIdx_ne st.fileIndex k' k hkk
    | some md =>
      simp only [removeOrphans, hlk]
      rw [ih _ hkr]
      exact lookupIdx_eraseIdx_ne st.fileIndex k' k hkk

theorem cleanup_kept (env : SyncEnv) (mkb : String) (st : SyncState) (pres : List String)
    (k : String) (hnd : (st.fileIndex.map Prod.fst).Nodup) (h : keptEntry pres st k) :
    ∃ e', lookupIdx (cleanupOrphanedFiles env mkb st pres).fileIndex k = some e' := by
  obtain ⟨e, hl, hsrc⟩ := h
  have hknotin : k ∉ (st.fileIndex.filter (fun kv => decide (orphanCond pres kv))).map Prod.fst := by
    intro hc
    rcases List.mem_map.mp hc with ⟨kv, hkvf, hfst⟩
    have hkvidx : kv ∈ st.fileIndex := List.mem_of_mem_filter hkvf
    have hlkv : lookupIdx st.fileIndex kv.1 = some kv.2 :=
      lookupIdx_of_mem_nodup _ _ _ hnd hkvidx
    rw [hfst, hl] at hlkv
    have h2 : kv.2 = e := by injection hlkv.symm
    have hcond : orphanCond pres kv := by
      have := (List.mem_filter.mp hkvf).2
      simpa using this
    have hcond2 : ¬ pres.contains (baseName kv.2.path) = true ∧
        kv.2.source = "openwebui" ∧ kv.2.fileID ≠ "" :=
      (orphanCond_iff pres kv.1 kv.2).mp hcond
    rw [h2] at hcond2
    rcases hsrc with hs | hs
    · exact hs hcond2.2.1
    · exact hcond2.1 hs
  unfold cleanupOrphanedFiles
  rw [removeOrphans_lookup_notin env mkb _ st k hknotin, hl]
  exact ⟨e, rfl⟩

/-- C3: an adapter outage never removes previously indexed entries.  For any
cycle in which some adapter's fetch fails, every index entry whose source is
an adapter name (not the downstream re-import marker `"openwebui"`) is still
present in the index when the cycle completes — in fact the engine never
deletes adapter-sourced keys at all: per-file syncs only skip or overwrite,
and orphan cleanup only removes `"openwebui"`-sourced entries. -/
theorem syncFiles_adapter_outage_retention (env : SyncEnv) (mkb : String)
    (idx : SyncIndex) (adapters : List AdapterRun)
    (hnd : (idx.map Prod.fst).Nodup)
    (a : AdapterRun) (_hmem : a ∈ adapters) (_hfail : a.fetch = none)
    (k : String) (e : FileMetadata)
    (hk : lookupIdx idx k = some e) (hsrc : e.source ≠ "openwebui") :
    ∃ e', lookupIdx (syncFiles env mkb idx adapters).state.fileIndex k = some e' := by
  unfold syncFiles
  have h0 : keptEntry [] ⟨idx, []⟩ k := ⟨e, hk, Or.inl hsrc⟩
  have hrun := runAdapters_kept env mkb adapters ⟨idx, []⟩ [] true k h0 hnd
  exact cleanup_kept env mkb _ _ k hrun.2 hrun.1

/-- C3 witness: a concrete cycle whose only adapter fails keeps the
adapter-sourced entry. -/
theorem syncFiles_adapter_outage_retention_witness :
    (⟨"github", none⟩ : AdapterRun) ∈ [(⟨"github", none⟩ : AdapterRun)] ∧
      ∃ e', lookupIdx (syncFiles okEnv ""
          [("a.md", ⟨"a.md", "h", "f1", "github", "K1", 0, 0⟩)]
          [⟨"github", none⟩]).state.fileIndex "a.md" = some e' :=
  ⟨List.mem_singleton.mpr rfl,
    syncFiles_adapter_outage_retention okEnv ""
      [("a.md", ⟨"a.md", "h", "f1", "github", "K1", 0, 0⟩)] [⟨"github", none⟩]
      (by decide) ⟨"github", none⟩ (List.mem_singleton.mpr rfl) rfl
      "a.md" ⟨"a.md", "h", "f1", "github", "K1", 0, 0⟩ (by decide) (by decide)⟩

/-! ## Helper lemmas: the ingestion wait against the spec schedule -/

theorem waitBuckets_zeroCount (env : WaitEnv) (bkts : List (Nat × Nat)) (st : WaitSt)
    (h : bucketsCount bkts = 0) : waitBuckets env bkts st = (st, none) := by
  induction bkts generalizing st with
  | nil => rfl
  | cons b rest ih =>
    obtain ⟨n, d⟩ := b
    have hn : n = 0 ∧ bucketsCount rest = 0 := by
      have := h
      simp [bucketsCount] at this
      exact this
    rw [hn.1]
    simp only [waitBuckets, waitCount]
    exact ih st hn.2

theorem flatDelays_zeroCount (bkts : List (Nat × Nat)) (h : bucketsCount bkts = 0) :
    flatDelays bkts = [] := by
  induction bkts with
  | nil => rfl
  | cons b rest ih =>
    obtain ⟨n, d⟩ := b
    have hn : n = 0 ∧ bucketsCount rest = 0 := by
      have := h
      simp [bucketsCount] at this
      exact this
    rw [hn.1]
    simp [flatDelays, ih hn.2]

theorem probeTimes_append (a b : List WaitEv) :
    probeTimes (a ++ b) = probeTimes a ++ probeTimes b := by
  simp [probeTimes]

theorem waitStep_none_err (probe : Nat → ProbeOutcome) (d : Nat) (st : WaitSt)
    (hp : probe st.attempt = .err) :
    waitStep ⟨probe, none⟩ d st =
      (⟨st.time + d, st.attempt + 1,
        (st.trace ++ [.probe st.time]) ++ [.sleepFull st.time d false]⟩, none) := by
  unfold waitStep
  simp [tripped, hp]

theorem waitStep_none_status (probe : Nat → ProbeOutcome) (d : Nat) (st : WaitSt)
    (s : String) (hp : probe st.attempt = .status s) :
    waitStep ⟨probe, none⟩ d st =
      (if s = "processed" ∨ s = "completed" ∨ s = "" then
        (⟨st.time, st.attempt + 1, st.trace ++ [.probe st.time]⟩, some .success)
      else if s = "error" ∨ s = "failed" then
        (⟨st.time, st.attempt + 1, st.trace ++ [.probe st.time]⟩, some .failed)
      else if st.attempt + 1 < totalAttempts then
        (⟨st.time + d, st.attempt + 1,
          (st.trace ++ [.probe st.time]) ++ [.sleepFull st.time d true]⟩, none)
      else (⟨st.time, st.attempt + 1, st.trace ++ [.probe st.time]⟩, none)) := by
  unfold waitStep
  simp only [tripped, Bool.false_eq_true, if_false, hp]
  by_cases h1 : s = "processed" ∨ s = "completed" ∨ s = ""
  · simp [h1]
  · simp only [h1, if_false]
    by_cases h2 : s = "error" ∨ s = "failed"
    · simp [h1, h2]
    · simp only [h2, if_false]
      by_cases h3 : st.attempt + 1 < totalAttempts
      · simp [h3, awareSleep]
      · simp [h3]

theorem waitBuckets_spec (probe : Nat → ProbeOutcome) (bkts : List (Nat × Nat)) (st : WaitSt)
    (hatt : st.attempt + bucketsCount bkts = totalAttempts) :
    (match (waitBuckets ⟨probe, none⟩ bkts st).2 with
      | some r => r
      | none => WaitResult.timeout) =
      (specWait probe st.attempt st.time (flatDelays bkts)).1 ∧
    (waitBuckets ⟨probe, none⟩ bkts st).1.attempt =
      (specWait probe st.attempt st.time (flatDelays bkts)).2.1 ∧
    probeTimes (waitBuckets ⟨probe, none⟩ bkts st).1.trace =
      probeTimes st.trace ++ (specWait probe st.attempt st.time (flatDelays bkts)).2.2 := by
  induction bkts generalizing st with
  | nil => simp [waitBuckets, flatDelays, specWait]
  | cons bkt rest ih =>
    obtain ⟨n, d⟩ := bkt
    induction n generalizing st with
    | zero =>
      have hatt' : st.attempt + bucketsCount rest = totalAttempts := by
        simp only [bucketsCount, List.map_cons, List.sum_cons] at hatt
        simpa using hatt
      have hzero : waitBuckets ⟨probe, none⟩ ((0, d) :: rest) st =
          waitBuckets ⟨probe, none⟩ rest st := by
        simp only [waitBuckets, waitCount]
      have hflat : flatDelays ((0, d) :: rest) = flatDelays rest := by
        simp [flatDelays]
      rw [hzero, hflat]
      exact ih st hatt'
    | succ m ihm =>
      have hflat : flatDelays ((m + 1, d) :: rest) = d :: flatDelays ((m, d) :: rest) := by
        simp [flatDelays, List.replicate_succ]
      have hcount : bucketsCount ((m + 1, d) :: rest) = bucketsCount ((m, d) :: rest) + 1 := by
        simp [bucketsCount]
        omega
      cases hp : probe st.attempt with
      | err =>
        have hs := waitStep_none_err probe d st hp
        have hrun : waitBuckets ⟨probe, none⟩ ((m + 1, d) :: rest) st =
            waitBuckets ⟨probe, none⟩ ((m, d) :: rest)
              ⟨st.time + d, st.attempt + 1,
                (st.trace ++ [.probe st.time]) ++ [.sleepFull st.time d false]⟩ := by
          simp only [waitBuckets, waitCount, hs]
        have hatt' : (⟨st.time + d, st.attempt + 1,
            (st.trace ++ [.probe st.time]) ++ [.sleepFull st.time d false]⟩ : WaitSt).attempt +
            bucketsCount ((m, d) :: rest) = totalAttempts := by
          show st.attempt + 1 + bucketsCount ((m, d) :: rest) = totalAttempts
          omega
        have hres := ihm ⟨st.time + d, st.attempt + 1,
            (st.trace ++ [.probe st.time]) ++ [.sleepFull st.time d false]⟩ hatt'
        rw [hrun, hflat]
        simp only [specWait, hp]
        refine ⟨hres.1, hres.2.1, ?_⟩
        rw [hres.2.2]
        simp [probeTimes_append, probeTimes]
      | status s =>
        have hs := waitStep_none_status probe d st s hp
        by_cases h1 : s = "processed" ∨ s = "completed" ∨ s = ""
        · rw [if_pos h1] at hs
          have hrun : waitBuckets ⟨probe, none⟩ ((m + 1, d) :: rest) st =
              (⟨st.time, st.attempt + 1, st.trace ++ [.probe st.time]⟩, some .success) := by
            simp only [waitBuckets, waitCount, hs]
          rw [hrun, hflat]
          simp only [specWait, hp, if_pos h1]
          refine ⟨trivial, trivial, ?_⟩
          simp [probeTimes_append, probeTimes]
        · rw [if_neg h1] at hs
          by_cases h2 : s = "error" ∨ s = "failed"
          · rw [if_pos h2] at hs
            have hrun : waitBuckets ⟨probe, none⟩ ((m + 1, d) :: rest) st =
                (⟨st.time, st.attempt + 1, st.trace ++ [.probe st.time]⟩, some .failed) := by
              simp only [waitBuckets, waitCount, hs]
            rw [hrun, hflat]
            simp only [specWait, hp, if_neg h1, if_pos h2]
            refine ⟨trivial, trivial, ?_⟩
            simp [probeTimes_append, probeTimes]
          · rw [if_neg h2] at hs
            by_cases h3 : st.attempt + 1 < totalAttempts
            · rw [if_pos h3] at hs
              have hrun : waitBuckets ⟨probe, none⟩ ((m + 1, d) :: rest) st =
                  waitBuckets ⟨probe, none⟩ ((m, d) :: rest)
                    ⟨st.time + d, st.attempt + 1,
                      (st.trace ++ [.probe st.time]) ++ [.sleepFull st.time d true]⟩ := by
                simp only [waitBuckets, waitCount, hs]
              have hatt' : (⟨st.time + d, st.attempt + 1,
                  (st.trace ++ [.probe st.time]) ++ [.sleepFull st.time d true]⟩ : WaitSt).attempt +
                  bucketsCount ((m, d) :: rest) = totalAttempts := by
                show st.attempt + 1 + bucketsCount ((m, d) :: rest) = totalAttempts
                omega
              have hres := ihm ⟨st.time + d, st.attempt + 1,
                  (st.trace ++ [.probe st.time]) ++ [.sleepFull st.time d true]⟩ hatt'
              rw [hrun, hflat]
              simp only [specWait, hp, if_neg h1, if_neg h2]
              refine ⟨hres.1, hres.2.1, ?_⟩
              rw [hres.2.2]
              simp [probeTimes_append, probeTimes]
            · rw [if_neg h3] at hs
              have hlast : m + bucketsCount rest = 0 := by
                rw [hcount] at hatt
                simp only [bucketsCount, List.map_cons, List.sum_cons] at hatt ⊢
                omega
              have hm : m = 0 := by omega
              have hrest : bucketsCount rest = 0 := by
                have : bucketsCount rest ≤ m + bucketsCount rest := Nat.le_add_left _ _
                omega
              have hrun : waitBuckets ⟨probe, none⟩ ((m + 1, d) :: rest) st =
                  waitBuckets ⟨probe, none⟩ ((m, d) :: rest)
                    ⟨st.time, st.attempt + 1, st.trace ++ [.probe st.time]⟩ := by
                simp only [waitBuckets, waitCount, hs]
              have hrun2 : waitBuckets ⟨probe, none⟩ ((m, d) :: rest)
                  (⟨st.time, st.attempt + 1, st.trace ++ [.probe st.time]⟩ : WaitSt) =
                  (⟨st.time, st.attempt + 1, st.trace ++ [.probe st.time]⟩, none) := by
                apply waitBuckets_zeroCount
                simp only [bucketsCount, List.map_cons, List.sum_cons, hm, Nat.zero_add]
                exact hrest
              have hflat0 : flatDelays ((m, d) :: rest) = [] := by
                apply flatDelays_zeroCount
                simp only [bucketsCount, List.map_cons, List.sum_cons, hm, Nat.zero_add]
                exact hrest
              rw [hrun, hrun2, hflat]
              simp only [specWait, hp, if_neg h1, if_neg h2, hflat0]
              refine ⟨trivial, trivial, ?_⟩
              simp [probeTimes_append, probeTimes]

/-- C7: with no cancellation, the ingestion wait observably equals the
spec's adaptive schedule: the schedule is the 51 intervals "five 2-second,
five 5-second, ten 10-second, fifteen 15-second, sixteen 20-second"; a
status probe precedes each interval and probe k happens at the sum of the
first k-1 intervals; the wait returns success at the first probe reporting
`processed`/`completed`/empty, failure at the first probe reporting
`error`/`failed`, and a timeout once all 51 probes are exhausted (a probe
transport error is non-terminal and just consumes its slot). -/
theorem waitForFileProcessing_schedule (probe : Nat → ProbeOutcome) :
    totalAttempts = 51 ∧
    specIntervals.length = 51 ∧
    flatDelays pollIntervals = specIntervals ∧
    (waitForFileProcessing ⟨probe, none⟩).2 = (specWait probe 0 0 specIntervals).1 ∧
    (waitForFileProcessing ⟨probe, none⟩).1.attempt = (specWait probe 0 0 specIntervals).2.1 ∧
    probeTimes (waitForFileProcessing ⟨probe, none⟩).1.trace =
      (specWait probe 0 0 specIntervals).2.2 := by
  have hflat : flatDelays pollIntervals = specIntervals := by decide
  have h := waitBuckets_spec probe pollIntervals ⟨0, 0, []⟩ (by decide)
  rw [hflat] at h
  refine ⟨by decide, by decide, hflat, ?_⟩
  unfold waitForFileProcessing
  obtain ⟨h1, h2, h3⟩ := h
  cases hw : waitBuckets ⟨probe, none⟩ pollIntervals ⟨0, 0, []⟩ with
  | mk st' r =>
    rw [hw] at h1 h2 h3
    cases r with
    | none =>
      refine ⟨by simpa using h1, by simpa using h2, ?_⟩
      simpa [probeTimes] using h3
    | some res =>
      refine ⟨by simpa using h1, by simpa using h2, ?_⟩
      simpa [probeTimes] using h3

/-! ## Helper lemmas: cancellation behaviour of the ingestion wait -/

theorem waitStep_cancel (T : Nat) (probe : Nat → ProbeOutcome) (d : Nat) (st : WaitSt)
    (hd : d ≤ 20) :
    (∀ ev ∈ (waitStep ⟨probe, some T⟩ d st).1.trace, ev ∈ st.trace ∨ awareOk T ev) ∧
    ((waitStep ⟨probe, some T⟩ d st).1.time = st.time ∨
      (waitStep ⟨probe, some T⟩ d st).1.time < T + 20) ∧
    (∀ res, (waitStep ⟨probe, some T⟩ d st).2 = some res → res ≠ .cancelled →
      (waitStep ⟨probe, some T⟩ d st).1.time = st.time ∧ st.time < T) := by
  unfold waitStep
  by_cases htr : tripped (some T) st.time = true
  · rw [if_pos htr]
    refine ⟨fun ev hev => Or.inl hev, Or.inl rfl, ?_⟩
    intro res hres hne
    injection hres with h
    exact absurd h.symm hne
  · rw [if_neg htr]
    have hlt : st.time < T := by
      simp [tripped] at htr
      omega
    cases hp : probe st.attempt with
    | err =>
      simp only [hp]
      refine ⟨?_, Or.inr (by omega), ?_⟩
      · intro ev hev
        simp only [List.mem_append, List.mem_singleton] at hev
        rcases hev with (hin | hpr) | hsl
        · exact Or.inl hin
        · right; rw [hpr]; exact hlt
        · right; rw [hsl]; intro hc; cases hc
      · intro res hres
        simp at hres
    | status s =>
      simp only [hp]
      by_cases h1 : s = "processed" ∨ s = "completed" ∨ s = ""
      · rw [if_pos h1]
        refine ⟨?_, Or.inl rfl, ?_⟩
        · intro ev hev
          simp only [List.mem_append, List.mem_singleton] at hev
          rcases hev with hin | hpr
          · exact Or.inl hin
          · right; rw [hpr]; exact hlt
        · intro res _ _
          exact ⟨rfl, hlt⟩
      · rw [if_neg h1]
        by_cases h2 : s = "error" ∨ s = "failed"
        · rw [if_pos h2]
          refine ⟨?_, Or.inl rfl, ?_⟩
          · intro ev hev
            simp only [List.mem_append, List.mem_singleton] at hev
            rcases hev with hin | hpr
            · exact Or.inl hin
            · right; rw [hpr]; exact hlt
          · intro res _ _
            exact ⟨rfl, hlt⟩
        · rw [if_neg h2]
          by_cases h3 : st.attempt + 1 < totalAttempts
          · rw [if_pos h3]
            by_cases hsl : T ≤ st.time + d
            · have hA : awareSleep (some T) st.time d = (max st.time T, true) := by
                simp [awareSleep, hsl]
              simp only [hA, if_true]
              refine ⟨?_, Or.inr (by omega), ?_⟩
              · intro ev hev
                simp only [List.mem_append, List.mem_singleton] at hev
                rcases hev with (hin | hpr) | hab
                · exact Or.inl hin
                · right; rw [hpr]; exact hlt
                · right; rw [hab]; trivial
              · intro res hres hne
                injection hres with h
                exact absurd h.symm hne
            · have hA : awareSleep (some T) st.time d = (st.time + d, false) := by
                simp [awareSleep, hsl]
              simp only [hA, Bool.false_eq_true, if_false]
              have hTgt : st.time + d < T := by omega
              refine ⟨?_, Or.inr (by omega), ?_⟩
              · intro ev hev
                simp only [List.mem_append, List.mem_singleton] at hev
                rcases hev with (hin | hpr) | hsf
                · exact Or.inl hin
                · right; rw [hpr]; exact hlt
                · right; rw [hsf]; intro _; exact hTgt
              · intro res hres
                simp at hres
          · rw [if_neg h3]
            refine ⟨?_, Or.inl rfl, ?_⟩
            · intro ev hev
              simp only [List.mem_append, List.mem_singleton] at hev
              rcases hev with hin | hpr
              · exact Or.inl hin
              · right; rw [hpr]; exact hlt
            · intro res hres
              simp at hres

theorem waitCount_cancel (T : Nat) (probe : Nat → ProbeOutcome) (d : Nat) (hd : d ≤ 20)
    (n : Nat) (st : WaitSt) :
    (∀ ev ∈ (waitCount ⟨probe, some T⟩ d n st).1.trace, ev ∈ st.trace ∨ awareOk T ev) ∧
    ((waitCount ⟨probe, some T⟩ d n st).1.time = st.time ∨
      (waitCount ⟨probe, some T⟩ d n st).1.time < T + 20) ∧
    (∀ res, (waitCount ⟨probe, some T⟩ d n st).2 = some res → res ≠ .cancelled →
      (waitCount ⟨probe, some T⟩ d n st).1.time < T) := by
  induction n generalizing st with
  | zero =>
    refine ⟨fun ev hev => Or.inl hev, Or.inl rfl, ?_⟩
    intro res h
    simp [waitCount] at h
  | succ m ih =>
    obtain ⟨hstep1, hstep2, hstep3⟩ := waitStep_cancel T probe d st hd
    cases hw : waitStep ⟨probe, some T⟩ d st with
    | mk st' r =>
      rw [hw] at hstep1 hstep2 hstep3
      cases r with
      | some res =>
        have hrun : waitCount ⟨probe, some T⟩ d (m + 1) st = (st', some res) := by
          simp only [waitCount, hw]
        rw [hrun]
        refine ⟨hstep1, hstep2, ?_⟩
        intro res' hres' hne
        injection hres' with h
        subst h
        obtain ⟨ht, hlt⟩ := hstep3 _ rfl hne
        rw [ht]
        exact hlt
      | none =>
        have hrun : waitCount ⟨probe, some T⟩ d (m + 1) st =
            waitCount ⟨probe, some T⟩ d m st' := by
          simp only [waitCount, hw]
        rw [hrun]
        obtain ⟨h1, h2, h3⟩ := ih st'
        refine ⟨?_, ?_, h3⟩
        · intro ev hev
          rcases h1 ev hev with hin | hok
          · exact hstep1 ev hin
          · exact Or.inr hok
        · rcases h2 with he | hlt
          · rw [he]; exact hstep2
          · exact Or.inr hlt

theorem waitBuckets_cancel (T : Nat) (probe : Nat → ProbeOutcome)
    (bkts : List (Nat × Nat)) (hd : ∀ b ∈ bkts, b.2 ≤ 20) (st : WaitSt) :
    (∀ ev ∈ (waitBuckets ⟨probe, some T⟩ bkts st).1.trace, ev ∈ st.trace ∨ awareOk T ev) ∧
    ((waitBuckets ⟨probe, some T⟩ bkts st).1.time = st.time ∨
      (waitBuckets ⟨probe, some T⟩ bkts st).1.time < T + 20) ∧
    (∀ res, (waitBuckets ⟨probe, some T⟩ bkts st).2 = some res → res ≠ .cancelled →
      (waitBuckets ⟨probe, some T⟩ bkts st).1.time < T) := by
  induction bkts generalizing st with
  | nil =>
    refine ⟨fun ev hev => Or.inl hev, Or.inl rfl, ?_⟩
    intro res h
    simp [waitBuckets] at h
  | cons b rest ih =>
    obtain ⟨n, d⟩ := b
    have hdn : d ≤ 20 := hd (n, d) (List.mem_cons_self _ _)
    have hdr : ∀ x ∈ rest, x.2 ≤ 20 := fun x hx => hd x (List.mem_cons_of_mem _ hx)
    obtain ⟨hc1, hc2, hc3⟩ := waitCount_cancel T probe d hdn n st
    cases hw : waitCount ⟨probe, some T⟩ d n st with
    | mk st' r =>
      rw [hw] at hc1 hc2 hc3
      cases r with
      | some res =>
        have hrun : waitBuckets ⟨probe, some T⟩ ((n, d) :: rest) st = (st', some res) := by
          simp only [waitBuckets, hw]
        rw [hrun]
        refine ⟨hc1, hc2, ?_⟩
        intro res' hres' hne
        injection hres' with h
        subst h
        exact hc3 _ rfl hne
      | none =>
        have hrun : waitBuckets ⟨probe, some T⟩ ((n, d) :: rest) st =
            waitBuckets ⟨probe, some T⟩ rest st' := by
          simp only [waitBuckets, hw]
        rw [hrun]
        obtain ⟨h1, h2, h3⟩ := ih hdr st'
        refine ⟨?_, ?_, h3⟩
        · intro ev hev
          rcases h1 ev hev with hin | hok
          · exact hc1 ev hin
          · exact Or.inr hok
        · rcases h2 with he | hlt
          · rw [he]; exact hc2
          · exact Or.inr hlt

/-- C8 counterexample: with the token tripping at time 1 during the first
sleep and the first status probe failing with a transport error, the wait
executes the plain (non-context-aware) `time.Sleep` of the probe-error path
(client.go line 313) to completion across the trip — the sleep spanning
`[0, 2]` finishes even though the token tripped at 1 — refuting "the wait
never sleeps through a tripped token"; cancellation is only noticed at the
next loop head. -/
theorem wait_sleeps_through_trip_counterexample :
    WaitEv.sleepFull 0 2 false ∈
        (waitForFileProcessing ⟨fun _ => ProbeOutcome.err, some 1⟩).1.trace ∧
      (1 : Nat) < 0 + 2 ∧
      (waitForFileProcessing ⟨fun _ => ProbeOutcome.err, some 1⟩).2 = .cancelled := by
  decide

/-- C8 (amended): once the token trips at time `T`, (a) every *context-aware*
sleep observes it — an aware sleep runs to completion only if it ends before
the trip; (b) no probe is issued at or after the trip; (c) the wait
terminates within one probe interval (at most the 20-second maximum) of the
trip; and (d) any success/failure result was decided by a probe strictly
before the trip, so after the trip only cancellation or timeout are
returned.  The plain sleep of the probe-error path does not observe the
trip, but the following loop-head check does, preserving the one-interval
bound. -/
theorem waitForFileProcessing_cancellation (probe : Nat → ProbeOutcome) (T : Nat) :
    (∀ s d, WaitEv.sleepFull s d true ∈
        (waitForFileProcessing ⟨probe, some T⟩).1.trace → s + d < T) ∧
    (∀ t, WaitEv.probe t ∈ (waitForFileProcessing ⟨probe, some T⟩).1.trace → t < T) ∧
    (waitForFileProcessing ⟨probe, some T⟩).1.time < T + 20 ∧
    ((waitForFileProcessing ⟨probe, some T⟩).2 = .success ∨
        (waitForFileProcessing ⟨probe, some T⟩).2 = .failed →
      (waitForFileProcessing ⟨probe, some T⟩).1.time < T) := by
  have hd : ∀ b ∈ pollIntervals, b.2 ≤ 20 := by decide
  obtain ⟨h1, h2, h3⟩ := waitBuckets_cancel T probe pollIntervals hd ⟨0, 0, []⟩
  unfold waitForFileProcessing
  cases hw : waitBuckets ⟨probe, some T⟩ pollIntervals ⟨0, 0, []⟩ with
  | mk st' r =>
    rw [hw] at h1 h2 h3
    have htime : st'.time < T + 20 := by
      rcases h2 with he | hlt
      · rw [he]
        show 0 < T + 20
        omega
      · exact hlt
    cases r with
    | none =>
      refine ⟨?_, ?_, htime, ?_⟩
      · intro s d hev
        rcases h1 _ hev with hin | hok
        · simp at hin
        · exact hok rfl
      · intro t hev
        rcases h1 _ hev with hin | hok
        · simp at hin
        · exact hok
      · intro hres
        rcases hres with hres | hres <;> cases hres
    | some res =>
      refine ⟨?_, ?_, htime, ?_⟩
      · intro s d hev
        rcases h1 _ hev with hin | hok
        · simp at hin
        · exact hok rfl
      · intro t hev
        rcases h1 _ hev with hin | hok
        · simp at hin
        · exact hok
      · intro hres
        rcases hres with hres | hres
        · exact h3 res rfl (by rw [show res = WaitResult.success from hres]; intro hc; cases hc)
        · exact h3 res rfl (by rw [show res = WaitResult.failed from hres]; intro hc; cases hc)

/-- C8 amended witness: a concrete instantiation (always-erroring probes,
token tripped from the start). -/
theorem waitForFileProcessing_cancellation_witness :
    (∀ s d, WaitEv.sleepFull s d true ∈
        (waitForFileProcessing ⟨fun _ => ProbeOutcome.err, some 0⟩).1.trace → s + d < 0) ∧
    (∀ t, WaitEv.probe t ∈
        (waitForFileProcessing ⟨fun _ => ProbeOutcome.err, some 0⟩).1.trace → t < 0) ∧
    (waitForFileProcessing ⟨fun _ => ProbeOutcome.err, some 0⟩).1.time < 0 + 20 ∧
    ((waitForFileProcessing ⟨fun _ => ProbeOutcome.err, some 0⟩).2 = .success ∨
        (waitForFileProcessing ⟨fun _ => ProbeOutcome.err, some 0⟩).2 = .failed →
      (waitForFileProcessing ⟨fun _ => ProbeOutcome.err, some 0⟩).1.time < 0) :=
  waitForFileProcessing_cancellation (fun _ => ProbeOutcome.err) 0

/-! ## Helper lemmas: fixed point of a repeated cycle -/

theorem foldSync_append (env : SyncEnv) (mkb : String) (l1 l2 : List (String × AFile))
    (st : SyncState) (pres : List String) (ok : Bool) :
    foldSync env mkb (l1 ++ l2) st pres ok =
      foldSync env mkb l2 (foldSync env mkb l1 st pres ok).1
        (foldSync env mkb l1 st pres ok).2.1 (foldSync env mkb l1 st pres ok).2.2 := by
  induction l1 generalizing st pres ok with
  | nil => rfl
  | cons p rest ih =>
    obtain ⟨src, f⟩ := p
    simp only [List.cons_append, foldSync]
    exact ih _ _ _

theorem syncAdapterFiles_eq_foldSync (env : SyncEnv) (mkb : String) (files : List AFile)
    (src : String) (st : SyncState) (pres : List String) (ok : Bool) :
    syncAdapterFiles env mkb files src st pres ok =
      foldSync env mkb (files.map (fun f => (src, f))) st pres ok := by
  induction files generalizing st pres ok with
  | nil => rfl
  | cons f rest ih =>
    simp only [syncAdapterFiles, List.map_cons, foldSync]
    exact ih _ _ _

theorem runAdapters_eq_foldSync (env : SyncEnv) (mkb : String)
    (adapters : List AdapterRun) (st : SyncState) (pres : List String) (ok : Bool) :
    runAdapters env mkb adapters st pres ok =
      foldSync env mkb (flatFiles adapters) st pres ok := by
  induction adapters generalizing st pres ok with
  | nil => rfl
  | cons a rest ih =>
    cases haf : a.fetch with
    | none =>
      simp only [runAdapters, haf, flatFiles, List.nil_append]
      exact ih _ _ _
    | some files =>
      simp only [runAdapters, haf, flatFiles]
      rw [syncAdapterFiles_eq_foldSync, foldSync_append, ih]

theorem foldSync_present (env : SyncEnv) (mkb : String) (todo : List (String × AFile))
    (st : SyncState) (pres : List String) (ok : Bool) :
    (foldSync env mkb todo st pres ok).2.1 =
      pres ++ todo.map (fun p => baseName p.2.path) := by
  induction todo generalizing st pres ok with
  | nil => simp [foldSync]
  | cons p rest ih =>
    obtain ⟨src, f⟩ := p
    simp only [foldSync, List.map_cons]
    rw [ih]
    simp

theorem findByHash_isSome (idx : SyncIndex) (h : String)
    (hex : ∃ kv ∈ idx, kv.2.hash = h) : ∃ e, findByHash idx h = some e := by
  induction idx with
  | nil => simp at hex
  | cons hd tl ih =>
    by_cases hc : hd.2.hash = h
    · exact ⟨hd.2, by simp [findByHash, hc]⟩
    · obtain ⟨kv, hkv, hh⟩ := hex
      rcases List.mem_cons.mp hkv with heq | hmem
      · rw [heq] at hh
        exact absurd hh hc
      · obtain ⟨e, he⟩ := ih ⟨kv, hmem, hh⟩
        exact ⟨e, by simpa [findByHash, hc] using he⟩

theorem findByHash_mem (idx : SyncIndex) (h : String) (e : FileMetadata)
    (hf : findByHash idx h = some e) : ∃ k, (k, e) ∈ idx := by
  induction idx with
  | nil => simp [findByHash] at hf
  | cons hd tl ih =>
    by_cases hc : hd.2.hash = h
    · have he : hd.2 = e := by simpa [findByHash, hc] using hf
      exact ⟨hd.1, by rw [← he]; exact List.mem_cons_self _ _⟩
    · have hf' : findByHash tl h = some e := by simpa [findByHash, hc] using hf
      obtain ⟨k, hk⟩ := ih hf'
      exact ⟨k, List.mem_cons_of_mem _ hk⟩

theorem syncFile_skip_of_content (env : SyncEnv) (mkb : String) (st : SyncState)
    (f : AFile) (source : String) (h : contentReady st.fileIndex f) :
    syncFile env mkb st f source = (st, true) := by
  rw [syncFile_cases]
  rcases h with ⟨e, hl, hh⟩ | ⟨hnone, kv, hkv, hh⟩
  · have hfo : foundOf st.fileIndex f = some (e, false) := by
      unfold foundOf
      rw [hl]
    rw [hfo]
    simp [hh]
  · obtain ⟨e', hf⟩ := findByHash_isSome st.fileIndex f.hash ⟨kv, hkv, hh⟩
    have hfo : foundOf st.fileIndex f = some (e', true) := by
      unfold foundOf
      rw [hnone, hf]
    rw [hfo]
    simp [findByHash_hash st.fileIndex f.hash e' hf]

theorem syncFile_allok (env : SyncEnv) (mkb : String) (st : SyncState) (f : AFile)
    (source : String) (hu : ∀ n, env.uploadOk n = true) (ha : ∀ n, env.attachOk n = true) :
    (∃ e b, foundOf st.fileIndex f = some (e, b) ∧ e.hash = f.hash ∧
      syncFile env mkb st f source = (st, true)) ∨
    (∃ fid kID, (syncFile env mkb st f source).1.fileIndex =
        insertIdx st.fileIndex (baseName f.path) (mkMeta env f source fid kID) ∧
      (syncFile env mkb st f source).2 = true) := by
  rw [syncFile_cases]
  cases hfo : foundOf st.fileIndex f with
  | none =>
    right
    by_cases hk : effKB mkb f.knowledgeID = ""
    · rw [uploadAttachRecord_noKB env mkb st f source none (hu _) hk, recordIndex_none_eq]
      exact ⟨_, _, rfl, rfl⟩
    · rw [uploadAttachRecord_ok env mkb st f source none (hu _) hk (ha _), recordIndex_none_eq]
      exact ⟨_, _, rfl, rfl⟩
  | some p =>
    obtain ⟨e, b⟩ := p
    by_cases hh : e.hash = f.hash
    · left
      exact ⟨e, b, rfl, hh, by simp [hh]⟩
    · right
      simp only [hh, if_false]
      have hb : b = false := by
        cases b with
        | false => rfl
        | true => exact absurd (foundOf_byHash_hash st.fileIndex f e hfo) hh
      subst hb
      have hidx : (detachStep env mkb st f e).fileIndex = st.fileIndex :=
        detachStep_fileIndex env mkb st f e
      by_cases hk : effKB mkb f.knowledgeID = ""
      · rw [uploadAttachRecord_noKB env mkb _ f source _ (hu _) hk,
          recordIndex_filename_eq env _ f source _ _ e hh]
        refine ⟨env.uploadId (countUploads (detachStep env mkb st f e).ops),
          effKB mkb f.knowledgeID, ?_, rfl⟩
        simp [hidx]
      · rw [uploadAttachRecord_ok env mkb _ f source _ (hu _) hk (ha _),
          recordIndex_filename_eq env _ f source _ _ e hh]
        refine ⟨env.uploadId (countUploads (detachStep env mkb st f e).ops),
          effKB mkb f.knowledgeID, ?_, rfl⟩
        simp [hidx]

theorem lookupIdx_eraseIdx_self (idx : SyncIndex) (k : String) :
    lookupIdx (eraseIdx idx k) k = none := by
  induction idx with
  | nil => rfl
  | cons hd tl ih =>
    by_cases hk : hd.1 = k
    · simpa [eraseIdx, hk] using ih
    · simpa [eraseIdx, hk, lookupIdx] using ih

theorem removeOrphans_lookup_none (env : SyncEnv) (mkb : String) (ks : List String)
    (st : SyncState) (k : String) (h : lookupIdx st.fileIndex k = none) :
    lookupIdx (removeOrphans env mkb st ks).fileIndex k = none := by
  induction ks generalizing st with
  | nil => exact h
  | cons k' rest ih =>
    have herase : lookupIdx (eraseIdx st.fileIndex k') k = none := by
      by_cases hk : k' = k
      · rw [hk]
        exact lookupIdx_eraseIdx_self _ _
      · rw [lookupIdx_eraseIdx_ne _ _ _ hk]
        exact h
    cases hlk : lookupIdx st.fileIndex k' with
    | none =>
      simp only [removeOrphans, hlk]
      exact ih _ herase
    | some md =>
      simp only [removeOrphans, hlk]
      exact ih _ herase

theorem not_orphan_of_kept (pres : List String) (k : String) (e : FileMetadata)
    (h : keptMeta pres e) : ¬ orphanCond pres (k, e) := by
  intro hc
  have h3 := (orphanCond_iff pres k e).mp hc
  rcases h with hs | hs
  · exact hs h3.2.1
  · exact h3.1 hs

theorem cleanup_lookup_eq (env : SyncEnv) (mkb : String) (st : SyncState)
    (pres : List String) (k : String) (e : FileMetadata)
    (hnd : (st.fileIndex.map Prod.fst).Nodup)
    (hl : lookupIdx st.fileIndex k = some e) (hkeep : ¬ orphanCond pres (k, e)) :
    lookupIdx (cleanupOrphanedFiles env mkb st pres).fileIndex k = some e := by
  have hknotin : k ∉ (st.fileIndex.filter
      (fun kv => decide (orphanCond pres kv))).map Prod.fst := by
    intro hc
    rcases List.mem_map.mp hc with ⟨kv, hkvf, hfst⟩
    have hkvidx : kv ∈ st.fileIndex := List.mem_of_mem_filter hkvf
    have hlkv : lookupIdx st.fileIndex kv.1 = some kv.2 :=
      lookupIdx_of_mem_nodup _ _ _ hnd hkvidx
    rw [hfst, hl] at hlkv
    have h2 : kv.2 = e := by injection hlkv.symm
    have hcond : orphanCond pres kv := by
      have := (List.mem_filter.mp hkvf).2
      simpa using this
    apply hkeep
    have hkv : kv = (k, e) := by
      have h1 : kv = (kv.1, kv.2) := rfl
      rw [h1, hfst, h2]
    rw [← hkv]
    exact hcond
  unfold cleanupOrphanedFiles
  rw [removeOrphans_lookup_notin env mkb _ st k hknotin]
  exact hl

theorem removeOrphans_nodup (env : SyncEnv) (mkb : String) (ks : List String)
    (st : SyncState) (hnd : (st.fileIndex.map Prod.fst).Nodup) :
    (((removeOrphans env mkb st ks).fileIndex.map Prod.fst)).Nodup := by
  induction ks generalizing st with
  | nil => exact hnd
  | cons k rest ih =>
    have hnd' : ((eraseIdx st.fileIndex k).map Prod.fst).Nodup := by
      rw [eraseIdx_eq_filter]
      exact List.Nodup.sublist (List.Sublist.map _ (List.filter_sublist _)) hnd
    cases hlk : lookupIdx st.fileIndex k with
    | none =>
      simp only [removeOrphans, hlk]
      exact ih _ hnd'
    | some md =>
      simp only [removeOrphans, hlk]
      exact ih _ hnd'

theorem cleanup_nodup (env : SyncEnv) (mkb : String) (st : SyncState) (pres : List String)
    (hnd : (st.fileIndex.map Prod.fst).Nodup) :
    (((cleanupOrphanedFiles env mkb st pres).fileIndex.map Prod.fst)).Nodup := by
  unfold cleanupOrphanedFiles
  exact removeOrphans_nodup env mkb _ st hnd

theorem cleanup_no_orphans (env : SyncEnv) (mkb : String) (st : SyncState)
    (pres : List String) (hnd : (st.fileIndex.map Prod.fst).Nodup) :
    ∀ kv ∈ (cleanupOrphanedFiles env mkb st pres).fileIndex, ¬ orphanCond pres kv := by
  intro kv hkv hc
  unfold cleanupOrphanedFiles at hkv
  obtain ⟨hidx, _⟩ := removeOrphans_spec env mkb
    ((st.fileIndex.filter (fun kv => decide (orphanCond pres kv))).map Prod.fst) st
    (List.Nodup.sublist (List.Sublist.map _ (List.filter_sublist _)) hnd)
  rw [hidx] at hkv
  have hmem := List.mem_filter.mp hkv
  have hcontains : ((st.fileIndex.filter
      (fun kv => decide (orphanCond pres kv))).map Prod.fst).contains kv.1 = true := by
    have : kv.1 ∈ (st.fileIndex.filter (fun kv => decide (orphanCond pres kv))).map Prod.fst :=
      List.mem_map_of_mem Prod.fst (List.mem_filter.mpr ⟨hmem.1, by simpa using hc⟩)
    simpa using this
  rw [hcontains] at hmem
  simp at hmem

theorem cleanup_identity_of_no_orphans (env : SyncEnv) (mkb : String) (st : SyncState)
    (pres : List String) (h : ∀ kv ∈ st.fileIndex, ¬ orphanCond pres kv) :
    cleanupOrphanedFiles env mkb st pres = st := by
  unfold cleanupOrphanedFiles
  have hfilter : st.fileIndex.filter (fun kv => decide (orphanCond pres kv)) = [] := by
    apply List.filter_eq_nil_iff.mpr
    intro kv hkv
    simpa using h kv hkv
  rw [hfilter]
  rfl

theorem foundOf_filename (idx : SyncIndex) (f : AFile) (e : FileMetadata)
    (h : foundOf idx f = some (e, false)) :
    lookupIdx idx (baseName f.path) = some e := by
  unfold foundOf at h
  cases hll : lookupIdx idx (baseName f.path) with
  | some e2 =>
    rw [hll] at h
    injection h with h'
    injection h' with h1 h2
    rw [h1]
  | none =>
    rw [hll] at h
    cases hfb : findByHash idx f.hash with
    | none => rw [hfb] at h; cases h
    | some e2 =>
      rw [hfb] at h
      injection h with h'
      injection h' with h1 h2
      cases h2

theorem foundOf_hashMatch (idx : SyncIndex) (f : AFile) (e : FileMetadata)
    (h : foundOf idx f = some (e, true)) :
    lookupIdx idx (baseName f.path) = none ∧ findByHash idx f.hash = some e := by
  unfold foundOf at h
  cases hll : lookupIdx idx (baseName f.path) with
  | some e2 =>
    rw [hll] at h
    injection h with h'
    injection h' with h1 h2
    cases h2
  | none =>
    rw [hll] at h
    cases hfb : findByHash idx f.hash with
    | none => rw [hfb] at h; cases h
    | some e2 =>
      rw [hfb] at h
      injection h with h'
      injection h' with h1 h2
      exact ⟨rfl, by rw [h1]⟩

theorem cycleInv_step (env : SyncEnv) (mkb : String) (idx0 : SyncIndex)
    (done : List (String × AFile)) (pres : List String) (st : SyncState)
    (p : String × AFile)
    (hinv : cycleInv idx0 done pres st.fileIndex)
    (hu : ∀ n, env.uploadOk n = true) (ha : ∀ n, env.attachOk n = true)
    (hbn : ∀ q ∈ done, baseName q.2.path ≠ baseName p.2.path)
    (how : ∀ kv ∈ idx0, kv.2.source = "openwebui" → kv.2.hash ≠ p.2.hash)
    (hpre : ∀ kv ∈ idx0, kv.2.hash = p.2.hash → kv.1 = baseName p.2.path) :
    cycleInv idx0 (done ++ [p]) (pres ++ [baseName p.2.path])
      (syncFile env mkb st p.2 p.1).1.fileIndex ∧
    (syncFile env mkb st p.2 p.1).2 = true := by
  obtain ⟨inv1, inv2, inv3, inv4, inv5⟩ := hinv
  have hkm : ∀ e, keptMeta pres e → keptMeta (pres ++ [baseName p.2.path]) e := by
    intro e he
    rcases he with hs | hs
    · exact Or.inl hs
    · exact Or.inr (contains_append_left pres _ _ hs)
  rcases syncFile_allok env mkb st p.2 p.1 hu ha with
    ⟨e, b, hfo, hh, heq⟩ | ⟨fid, kID, hidx, hok⟩
  · have hfi : (syncFile env mkb st p.2 p.1).1.fileIndex = st.fileIndex := by rw [heq]
    have hsucc : (syncFile env mkb st p.2 p.1).2 = true := by rw [heq]
    rw [hfi, hsucc]
    refine ⟨⟨?_, ?_, ?_, inv4, inv5⟩, rfl⟩
    · intro q hq
      rcases List.mem_append.mp hq with hqd | hqp
      · rcases inv1 q hqd with ⟨e', hl, hh', hk⟩ | ⟨hnone, q', hq', e', hl, hh', hk⟩
        · exact Or.inl ⟨e', hl, hh', hkm e' hk⟩
        · exact Or.inr ⟨hnone, q', List.mem_append_left _ hq', e', hl, hh', hkm e' hk⟩
      · rw [List.mem_singleton.mp hqp]
        cases b with
        | false =>
          have hl := foundOf_filename _ _ _ hfo
          rcases inv2 _ _ hl with h0 | ⟨q', hq', hkq, hhq, hpq⟩
          · have hsrc : e.source ≠ "openwebui" := by
              intro hs
              exact how (baseName p.2.path, e) (lookupIdx_mem _ _ _ h0) hs hh
            exact Or.inl ⟨e, hl, hh, Or.inl hsrc⟩
          · exact absurd hkq.symm (hbn q' hq')
        | true =>
          obtain ⟨hnone, hfind⟩ := foundOf_hashMatch _ _ _ hfo
          obtain ⟨k0, hk0⟩ := findByHash_mem _ _ _ hfind
          have hlk0 : lookupIdx st.fileIndex k0 = some e :=
            lookupIdx_of_mem_nodup _ _ _ inv5 hk0
          rcases inv2 _ _ hlk0 with h0 | ⟨q', hq', hkq, hhq, hpq⟩
          · have hk0eq : k0 = baseName p.2.path :=
              hpre (k0, e) (lookupIdx_mem _ _ _ h0) hh
            rw [hk0eq, hnone] at hlk0
            cases hlk0
          · refine Or.inr ⟨hnone, q', List.mem_append_left _ hq', e, ?_, hh, ?_⟩
            · rw [← hkq]
              exact hlk0
            · right
              rw [hpq]
              exact contains_append_left pres _ _ (inv3 q' hq')
    · intro k e' hl
      rcases inv2 k e' hl with h0 | ⟨q', hq', h1, h2, h3⟩
      · exact Or.inl h0
      · exact Or.inr ⟨q', List.mem_append_left _ hq', h1, h2, h3⟩
    · intro q hq
      rcases List.mem_append.mp hq with hqd | hqp
      · exact contains_append_left pres _ _ (inv3 q hqd)
      · rw [List.mem_singleton.mp hqp]
        exact contains_append_self pres _
  · rw [hidx, hok]
    refine ⟨⟨?_, ?_, ?_, ?_, ?_⟩, rfl⟩
    · intro q hq
      rcases List.mem_append.mp hq with hqd | hqp
      · rcases inv1 q hqd with ⟨e', hl, hh', hk⟩ | ⟨hnone, q', hq', e', hl, hh', hk⟩
        · refine Or.inl ⟨e', ?_, hh', hkm e' hk⟩
          rw [lookupIdx_insertIdx_ne _ _ _ _ (Ne.symm (hbn q hqd))]
          exact hl
        · refine Or.inr ⟨?_, q', List.mem_append_left _ hq', e', ?_, hh', hkm e' hk⟩
          · rw [lookupIdx_insertIdx_ne _ _ _ _ (Ne.symm (hbn q hqd))]
            exact hnone
          · rw [lookupIdx_insertIdx_ne _ _ _ _ (Ne.symm (hbn q' hq'))]
            exact hl
      · rw [List.mem_singleton.mp hqp]
        left
        refine ⟨mkMeta env p.2 p.1 fid kID, lookupIdx_insertIdx_self _ _ _, rfl, ?_⟩
        right
        show (pres ++ [baseName p.2.path]).contains
          (baseName (mkMeta env p.2 p.1 fid kID).path) = true
        exact contains_append_self pres _
    · intro k e' hl
      by_cases hk : baseName p.2.path = k
      · rw [← hk, lookupIdx_insertIdx_self] at hl
        injection hl with he'
        refine Or.inr ⟨p, List.mem_append_right _ (List.mem_singleton.mpr rfl), hk.symm, ?_, ?_⟩
        · rw [← he']; rfl
        · rw [← he']; rfl
      · rw [lookupIdx_insertIdx_ne _ _ _ _ hk] at hl
        rcases inv2 k e' hl with h0 | ⟨q', hq', h1, h2, h3⟩
        · exact Or.inl h0
        · exact Or.inr ⟨q', List.mem_append_left _ hq', h1, h2, h3⟩
    · intro q hq
      rcases List.mem_append.mp hq with hqd | hqp
      · exact contains_append_left pres _ _ (inv3 q hqd)
      · rw [List.mem_singleton.mp hqp]
        exact contains_append_self pres _
    · intro k e0 h0
      obtain ⟨e1, he1⟩ := inv4 k e0 h0
      by_cases hk : baseName p.2.path = k
      · refine ⟨mkMeta env p.2 p.1 fid kID, ?_⟩
        rw [← hk]
        exact lookupIdx_insertIdx_self _ _ _
      · refine ⟨e1, ?_⟩
        rw [lookupIdx_insertIdx_ne _ _ _ _ hk]
        exact he1
    · exact nodup_insertIdx _ _ _ inv5

theorem foldSync_inv (env : SyncEnv) (mkb : String) (idx0 : SyncIndex)
    (todo : List (String × AFile)) (done : List (String × AFile)) (st : SyncState)
    (pres : List String) (ok : Bool)
    (hnodup : ((done ++ todo).map (fun p => baseName p.2.path)).Nodup)
    (how : ∀ kv ∈ idx0, kv.2.source = "openwebui" → ∀ p ∈ todo, kv.2.hash ≠ p.2.hash)
    (hpre : ∀ p ∈ todo, ∀ kv ∈ idx0, kv.2.hash = p.2.hash → kv.1 = baseName p.2.path)
    (hu : ∀ n, env.uploadOk n = true) (ha : ∀ n, env.attachOk n = true)
    (hinv : cycleInv idx0 done pres st.fileIndex) :
    cycleInv idx0 (done ++ todo) (foldSync env mkb todo st pres ok).2.1
      (foldSync env mkb todo st pres ok).1.fileIndex ∧
    (foldSync env mkb todo st pres ok).2.2 = ok := by
  induction todo generalizing done st pres ok with
  | nil =>
    simp only [foldSync, List.append_nil]
    exact ⟨hinv, trivial⟩
  | cons p rest ih =>
    obtain ⟨src, f⟩ := p
    have hbn : ∀ q ∈ done, baseName q.2.path ≠ baseName (src, f).2.path := by
      intro q hq hcontra
      have hmap : ((done ++ (src, f) :: rest).map (fun p => baseName p.2.path)) =
          done.map (fun p => baseName p.2.path) ++
            (baseName f.path :: rest.map (fun p => baseName p.2.path)) := by
        simp
      rw [hmap] at hnodup
      have hdisj := List.disjoint_of_nodup_append hnodup
      exact hdisj (List.mem_map_of_mem _ hq)
        (by rw [show baseName q.2.path = baseName f.path from hcontra]
            exact List.mem_cons_self _ _)
    have hstep := cycleInv_step env mkb idx0 done pres st (src, f) hinv hu ha hbn
      (fun kv hkv hs => how kv hkv hs (src, f) (List.mem_cons_self _ _))
      (fun kv hkv hh => hpre (src, f) (List.mem_cons_self _ _) kv hkv hh)
    have hap : done ++ (src, f) :: rest = (done ++ [(src, f)]) ++ rest := by simp
    rw [hap] at hnodup
    have how' : ∀ kv ∈ idx0, kv.2.source = "openwebui" → ∀ p ∈ rest, kv.2.hash ≠ p.2.hash :=
      fun kv hkv hs p hp => how kv hkv hs p (List.mem_cons_of_mem _ hp)
    have hpre' : ∀ p ∈ rest, ∀ kv ∈ idx0, kv.2.hash = p.2.hash → kv.1 = baseName p.2.path :=
      fun p hp kv hkv hh => hpre p (List.mem_cons_of_mem _ hp) kv hkv hh
    have hres := ih (done ++ [(src, f)]) (syncFile env mkb st f src).1
      (pres ++ [baseName f.path]) (ok && (syncFile env mkb st f src).2)
      hnodup how' hpre' hstep.1
    constructor
    · show cycleInv idx0 (done ++ (src, f) :: rest) _ _
      rw [hap]
      exact hres.1
    · show (foldSync env mkb rest (syncFile env mkb st f src).1
        (pres ++ [baseName f.path]) (ok && (syncFile env mkb st f src).2)).2.2 = ok
      rw [hres.2, hstep.2, Bool.and_true]

theorem foldSync_skip_all (env : SyncEnv) (mkb : String) (todo : List (String × AFile))
    (st : SyncState) (pres : List String) (ok : Bool)
    (h : ∀ p ∈ todo, contentReady st.fileIndex p.2) :
    foldSync env mkb todo st pres ok =
      (st, pres ++ todo.map (fun p => baseName p.2.path), ok) := by
  induction todo generalizing pres ok with
  | nil => simp [foldSync]
  | cons p rest ih =>
    obtain ⟨src, f⟩ := p
    simp only [foldSync]
    rw [syncFile_skip_of_content env mkb st f src (h (src, f) (List.mem_cons_self _ _))]
    show foldSync env mkb rest st (pres ++ [baseName f.path]) (ok && true) = _
    rw [ih _ _ (fun q hq => h q (List.mem_cons_of_mem _ hq))]
    simp

theorem cleanup_lookup_none (env : SyncEnv) (mkb : String) (st : SyncState)
    (pres : List String) (k : String) (h : lookupIdx st.fileIndex k = none) :
    lookupIdx (cleanupOrphanedFiles env mkb st pres).fileIndex k = none := by
  unfold cleanupOrphanedFiles
  exact removeOrphans_lookup_none env mkb _ st k h

theorem syncFiles_unfold (env : SyncEnv) (mkb : String) (idx : SyncIndex)
    (adapters : List AdapterRun) :
    syncFiles env mkb idx adapters =
      ⟨⟨(cleanupOrphanedFiles env mkb
            (foldSync env mkb (flatFiles adapters) ⟨idx, []⟩ [] true).1
            (foldSync env mkb (flatFiles adapters) ⟨idx, []⟩ [] true).2.1).fileIndex,
        (cleanupOrphanedFiles env mkb
            (foldSync env mkb (flatFiles adapters) ⟨idx, []⟩ [] true).1
            (foldSync env mkb (flatFiles adapters) ⟨idx, []⟩ [] true).2.1).ops ++
          [.saveIndex env.saveIndexOk]⟩,
       (foldSync env mkb (flatFiles adapters) ⟨idx, []⟩ [] true).2.1,
       (foldSync env mkb (flatFiles adapters) ⟨idx, []⟩ [] true).2.2, true⟩ := by
  unfold syncFiles
  rw [runAdapters_eq_foldSync]

theorem syncFiles_cycle1 (env : SyncEnv) (mkb : String) (idx : SyncIndex)
    (adapters : List AdapterRun)
    (hnd : (idx.map Prod.fst).Nodup)
    (hdist : ((filesOf adapters).map (fun f => baseName f.path)).Nodup)
    (how : ∀ kv ∈ idx, kv.2.source = "openwebui" → ∀ f ∈ filesOf adapters, kv.2.hash ≠ f.hash)
    (hpre : ∀ f ∈ filesOf adapters, ∀ kv ∈ idx, kv.2.hash = f.hash → kv.1 = baseName f.path)
    (hu : ∀ n, env.uploadOk n = true) (ha : ∀ n, env.attachOk n = true) :
    (∀ f ∈ filesOf adapters, contentReady (syncFiles env mkb idx adapters).state.fileIndex f) ∧
    (((syncFiles env mkb idx adapters).state.fileIndex.map Prod.fst).Nodup) ∧
    (∀ kv ∈ (syncFiles env mkb idx adapters).state.fileIndex,
      ¬ orphanCond ((flatFiles adapters).map (fun p => baseName p.2.path)) kv) ∧
    (syncFiles env mkb idx adapters).allOk = true := by
  have hdist' : ((([] : List (String × AFile)) ++ flatFiles adapters).map
      (fun p => baseName p.2.path)).Nodup := by
    rw [List.nil_append]
    have : (flatFiles adapters).map (fun p => baseName p.2.path) =
        (filesOf adapters).map (fun f => baseName f.path) := by
      unfold filesOf
      rw [List.map_map]
      rfl
    rw [this]
    exact hdist
  have how' : ∀ kv ∈ idx, kv.2.source = "openwebui" →
      ∀ p ∈ flatFiles adapters, kv.2.hash ≠ p.2.hash := by
    intro kv hkv hs p hp
    exact how kv hkv hs p.2 (List.mem_map_of_mem Prod.snd hp)
  have hpre' : ∀ p ∈ flatFiles adapters, ∀ kv ∈ idx,
      kv.2.hash = p.2.hash → kv.1 = baseName p.2.path := by
    intro p hp kv hkv hh
    exact hpre p.2 (List.mem_map_of_mem Prod.snd hp) kv hkv hh
  have hinv0 : cycleInv idx [] [] (SyncState.fileIndex ⟨idx, []⟩) := by
    refine ⟨?_, ?_, ?_, ?_, hnd⟩
    · intro p hp
      simp at hp
    · intro k e hl
      exact Or.inl hl
    · intro q hq
      simp at hq
    · intro k e0 h0
      exact ⟨e0, h0⟩
  obtain ⟨hinv, hok⟩ := foldSync_inv env mkb idx (flatFiles adapters) [] ⟨idx, []⟩ [] true
    hdist' how' hpre' hu ha hinv0
  rw [List.nil_append] at hinv
  obtain ⟨inv1, inv2, inv3, inv4, inv5⟩ := hinv
  rw [syncFiles_unfold]
  have hpres : (foldSync env mkb (flatFiles adapters) ⟨idx, []⟩ [] true).2.1 =
      (flatFiles adapters).map (fun p => baseName p.2.path) := by
    rw [foldSync_present]
    exact List.nil_append _
  refine ⟨?_, ?_, ?_, by simpa using hok⟩
  · intro f hf
    rcases List.mem_map.mp hf with ⟨p, hp, hpf⟩
    rcases inv1 p hp with ⟨e, hl, hh, hk⟩ | ⟨hnone, q', hq', e, hl, hh, hk⟩
    · left
      refine ⟨e, ?_, by rw [← hpf]; exact hh⟩
      show lookupIdx (cleanupOrphanedFiles env mkb _ _).fileIndex (baseName f.path) = some e
      rw [← hpf]
      apply cleanup_lookup_eq env mkb _ _ _ _ inv5 hl
      apply not_orphan_of_kept
      exact hk
    · right
      constructor
      · show lookupIdx (cleanupOrphanedFiles env mkb _ _).fileIndex (baseName f.path) = none
        rw [← hpf]
        exact cleanup_lookup_none env mkb _ _ _ hnone
      · have hkeep : lookupIdx (cleanupOrphanedFiles env mkb
            (foldSync env mkb (flatFiles adapters) ⟨idx, []⟩ [] true).1
            (foldSync env mkb (flatFiles adapters) ⟨idx, []⟩ [] true).2.1).fileIndex
            (baseName q'.2.path) = some e := by
          apply cleanup_lookup_eq env mkb _ _ _ _ inv5 hl
          apply not_orphan_of_kept
          exact hk
        refine ⟨(baseName q'.2.path, e), lookupIdx_mem _ _ _ hkeep, ?_⟩
        rw [← hpf]
        exact hh
  · exact cleanup_nodup env mkb _ _ inv5
  · intro kv hkv
    rw [← hpres]
    exact cleanup_no_orphans env mkb _ _ inv5 kv hkv

/-- C5 counterexample: after a fully successful cycle over an adapter output
containing two files with the *same basename* but different content, a
second cycle over the identical output performs two more uploads — the two
files keep overwriting the single `"x.md"` index entry, so the state is not
a fixed point and "zero uploads" fails. -/
theorem syncFiles_fixed_point_counterexample :
    ((syncFiles okEnv "" []
        [⟨"github", some [⟨"a/x.md", [1], "h1", 0, "github", "K1"⟩,
            ⟨"b/x.md", [2], "h2", 0, "github", "K1"⟩]⟩]).allOk = true) ∧
      countUploads (syncFiles okEnv ""
        (syncFiles okEnv "" []
          [⟨"github", some [⟨"a/x.md", [1], "h1", 0, "github", "K1"⟩,
              ⟨"b/x.md", [2], "h2", 0, "github", "K1"⟩]⟩]).state.fileIndex
        [⟨"github", some [⟨"a/x.md", [1], "h1", 0, "github", "K1"⟩,
            ⟨"b/x.md", [2], "h2", 0, "github", "K1"⟩]⟩]).state.ops = 2 := by
  decide

/-- C5 (amended): a successful cycle reaches a fixed point, provided the
adapter output has pairwise-distinct basenames, no re-imported
(`"openwebui"`-sourced) index entry shares a fingerprint with any reported
file, and every starting entry that shares a fingerprint with a reported
file sits under that file's basename.  Then a second cycle over the same
output performs zero uploads, zero attaches and zero detaches, every
per-file sync succeeds again, and the index is left completely unchanged
(not even `synced_at` moves, since the skip path does not rewrite
entries). -/
theorem syncFiles_fixed_point (env env2 : SyncEnv) (mkb : String) (idx : SyncIndex)
    (adapters : List AdapterRun)
    (hnd : (idx.map Prod.fst).Nodup)
    (hdist : ((filesOf adapters).map (fun f => baseName f.path)).Nodup)
    (how : ∀ kv ∈ idx, kv.2.source = "openwebui" → ∀ f ∈ filesOf adapters, kv.2.hash ≠ f.hash)
    (hpre : ∀ f ∈ filesOf adapters, ∀ kv ∈ idx, kv.2.hash = f.hash → kv.1 = baseName f.path)
    (hu : ∀ n, env.uploadOk n = true) (ha : ∀ n, env.attachOk n = true) :
    (syncFiles env mkb idx adapters).allOk = true ∧
    (syncFiles env2 mkb (syncFiles env mkb idx adapters).state.fileIndex
        adapters).state.fileIndex = (syncFiles env mkb idx adapters).state.fileIndex ∧
    countUploads (syncFiles env2 mkb (syncFiles env mkb idx adapters).state.fileIndex
        adapters).state.ops = 0 ∧
    countAttaches (syncFiles env2 mkb (syncFiles env mkb idx adapters).state.fileIndex
        adapters).state.ops = 0 ∧
    countDetaches (syncFiles env2 mkb (syncFiles env mkb idx adapters).state.fileIndex
        adapters).state.ops = 0 ∧
    (syncFiles env2 mkb (syncFiles env mkb idx adapters).state.fileIndex
        adapters).allOk = true := by
  obtain ⟨hready, hnd1, hnoorph, hallok⟩ :=
    syncFiles_cycle1 env mkb idx adapters hnd hdist how hpre hu ha
  refine ⟨hallok, ?_⟩
  rw [syncFiles_unfold env2 mkb
    (syncFiles env mkb idx adapters).state.fileIndex adapters]
  have hskip : foldSync env2 mkb (flatFiles adapters)
      ⟨(syncFiles env mkb idx adapters).state.fileIndex, []⟩ [] true =
      (⟨(syncFiles env mkb idx adapters).state.fileIndex, []⟩,
        [] ++ (flatFiles adapters).map (fun p => baseName p.2.path), true) :=
    foldSync_skip_all env2 mkb _ _ [] true
      (fun p hp => hready p.2 (List.mem_map_of_mem Prod.snd hp))
  rw [hskip]
  have hclean : cleanupOrphanedFiles env2 mkb
      ⟨(syncFiles env mkb idx adapters).state.fileIndex, []⟩
      ([] ++ (flatFiles adapters).map (fun p => baseName p.2.path)) =
      ⟨(syncFiles env mkb idx adapters).state.fileIndex, []⟩ := by
    rw [List.nil_append]
    exact cleanup_identity_of_no_orphans env2 mkb _ _ (fun kv hkv => hnoorph kv hkv)
  rw [hclean]
  refine ⟨rfl, ?_, ?_, ?_, rfl⟩
  · show countUploads ([] ++ [.saveIndex env2.saveIndexOk]) = 0
    simp [countUploads, isUpload]
  · show countAttaches ([] ++ [.saveIndex env2.saveIndexOk]) = 0
    simp [countAttaches, isAttach]
  · show countDetaches ([] ++ [.saveIndex env2.saveIndexOk]) = 0
    simp [countDetaches, isDetach]

/-- C5 amended witness: one adapter with two distinct-basename files over an
empty index; the second cycle is a no-op. -/
theorem syncFiles_fixed_point_witness :
    (syncFiles okEnv "" []
        [⟨"github", some [⟨"a/x.md", [1], "h1", 0, "github", "K1"⟩,
            ⟨"b/y.md", [2], "h2", 0, "github", "K1"⟩]⟩]).allOk = true ∧
    (syncFiles attachFailEnv ""
        (syncFiles okEnv "" []
          [⟨"github", some [⟨"a/x.md", [1], "h1", 0, "github", "K1"⟩,
              ⟨"b/y.md", [2], "h2", 0, "github", "K1"⟩]⟩]).state.fileIndex
        [⟨"github", some [⟨"a/x.md", [1], "h1", 0, "github", "K1"⟩,
            ⟨"b/y.md", [2], "h2", 0, "github", "K1"⟩]⟩]).state.fileIndex =
      (syncFiles okEnv "" []
        [⟨"github", some [⟨"a/x.md", [1], "h1", 0, "github", "K1"⟩,
            ⟨"b/y.md", [2], "h2", 0, "github", "K1"⟩]⟩]).state.fileIndex ∧
    countUploads (syncFiles attachFailEnv ""
        (syncFiles okEnv "" []
          [⟨"github", some [⟨"a/x.md", [1], "h1", 0, "github", "K1"⟩,
              ⟨"b/y.md", [2], "h2", 0, "github", "K1"⟩]⟩]).state.fileIndex
        [⟨"github", some [⟨"a/x.md", [1], "h1", 0, "github", "K1"⟩,
            ⟨"b/y.md", [2], "h2", 0, "github", "K1"⟩]⟩]).state.ops = 0 ∧
    countAttaches (syncFiles attachFailEnv ""
        (syncFiles okEnv "" []
          [⟨"github", some [⟨"a/x.md", [1], "h1", 0, "github", "K1"⟩,
              ⟨"b/y.md", [2], "h2", 0, "github", "K1"⟩]⟩]).state.fileIndex
        [⟨"github", some [⟨"a/x.md", [1], "h1", 0, "github", "K1"⟩,
            ⟨"b/y.md", [2], "h2", 0, "github", "K1"⟩]⟩]).state.ops = 0 ∧
    countDetaches (syncFiles attachFailEnv ""
        (syncFiles okEnv "" []
          [⟨"github", some [⟨"a/x.md", [1], "h1", 0, "github", "K1"⟩,
              ⟨"b/y.md", [2], "h2", 0, "github", "K1"⟩]⟩]).state.fileIndex
        [⟨"github", some [⟨"a/x.md", [1], "h1", 0, "github", "K1"⟩,
            ⟨"b/y.md", [2], "h2", 0, "github", "K1"⟩]⟩]).state.ops = 0 ∧
    (syncFiles attachFailEnv ""
        (syncFiles okEnv "" []
          [⟨"github", some [⟨"a/x.md", [1], "h1", 0, "github", "K1"⟩,
              ⟨"b/y.md", [2], "h2", 0, "github", "K1"⟩]⟩]).state.fileIndex
        [⟨"github", some [⟨"a/x.md", [1], "h1", 0, "github", "K1"⟩,
            ⟨"b/y.md", [2], "h2", 0, "github", "K1"⟩]⟩]).allOk = true :=
  syncFiles_fixed_point okEnv attachFailEnv "" []
    [⟨"github", some [⟨"a/x.md", [1], "h1", 0, "github", "K1"⟩,
        ⟨"b/y.md", [2], "h2", 0, "github", "K1"⟩]⟩]
    (by decide) (by decide) (by decide) (by decide) (fun _ => rfl) (fun _ => rfl)
